import Mathlib

/-!
# Verification of the platform-graph extractors

A shallow embedding of the two producers of this repository:

* `src/mongodb/mongo_schema_extractor.py` — samples MongoDB collections,
  infers field-type schemas and foreign-key-like references, and synchronizes
  them into a Neo4j property graph.
* `src/python/analyzer.py` — walks Python source declarations and synchronizes
  Class/Function/Method nodes into the same kind of graph.

BSON values are modelled by the inductive `Value`; Python dictionaries by
insertion-ordered association lists (`dictSet` updates in place, appends when
the key is new, exactly like CPython dicts); Python sets of type names by
insertion-ordered duplicate-free lists.  Each program's session traffic is
modelled as a trace of graph-store operations (`Op`), and the graph store
itself by `Graph` with Cypher MERGE / DETACH DELETE semantics (`applyOp`).
-/

/-- Insertion-ordered dictionary lookup (first matching key; the `dictSet`
discipline below never produces duplicate keys). -/
def assocLookup (d : List (String × α)) (k : String) : Option α :=
  (d.find? (fun p => p.1 = k)).map (·.2)

/-- CPython dict assignment `d[k] = v`: update in place when the key is
present, append otherwise (insertion order preserved). -/
def dictSet (d : List (String × α)) (k : String) (v : α) : List (String × α) :=
  if d.any (fun p => p.1 = k) then
    d.map (fun p => if p.1 = k then (k, v) else p)
  else
    d ++ [(k, v)]

/-- Python `set.add` on a set modelled as an insertion-ordered list. -/
def insertNew (l : List String) (t : String) : List String :=
  if t ∈ l then l else l ++ [t]

/-- BSON values as sampled from a collection (`Value = Scalar | ReferenceId |
Array | Null` closed variant; embedded documents are not needed by any claim
and are omitted from the universe). -/
inductive Value where
  | vStr (s : String)
  | vInt (n : Int)
  | vBool (b : Bool)
  | vNull
  | vObjectId (oid : String)
  | vArr (elems : List Value)

/-- Python `type(value).__name__` for the modelled value universe. -/
def typeName : Value → String
  | .vStr _ => "str"
  | .vInt _ => "int"
  | .vBool _ => "bool"
  | .vNull => "NoneType"
  | .vObjectId _ => "ObjectId"
  | .vArr _ => "list"

/-- Python `isinstance(value, ObjectId)`. -/
def isObjectId : Value → Bool
  | .vObjectId _ => true
  | _ => false

/-- A sampled record: field name ↦ value, in document order. -/
abbrev Doc := List (String × Value)

/-- A MongoDB database: collection name ↦ documents, in
`list_collection_names` order.  `find().limit(n)` returns a prefix. -/
abbrev MongoDb := List (String × List Doc)

/-- An inferred schema: field name ↦ observed type names. -/
abbrev Schema := List (String × List String)

/-- One iteration of the schema loop in `get_collection_schema`:
for every field of the record, add `type(value).__name__` to the field's
type set, creating the entry when absent. -/
def updateDoc (s : Schema) (doc : Doc) : Schema :=
  doc.foldl
    (fun s kv => dictSet s kv.1 (insertNew ((assocLookup s kv.1).getD []) (typeName kv.2)))
    s

/-- The sampling loop of `get_collection_schema`, over a cursor that may
raise mid-iteration (`Except.error` marks the position where the read
throws).  Returns the accumulated schema and whether the loop was cut
short by an error. -/
def schemaLoop (s : Schema) : List (Except Unit Doc) → Schema × Bool
  | [] => (s, false)
  | (Except.error _) :: _ => (s, true)
  | (Except.ok doc) :: rest => schemaLoop (updateDoc s doc) rest

/-- Python `\x7bk: list(v) for k, v in schema.items()\x7d` — materializing each type set
as a list; on the list-based model of sets this rebuilds each entry. -/
def schemaListed (s : Schema) : Schema :=
  s.map (fun kv => (kv.1, kv.2))

/-- Source `get_collection_schema`: on a clean run the sets are converted to lists;
on a read error the schema accumulated so far is returned as-is. -/
def getCollectionSchema (stream : List (Except Unit Doc)) : Schema :=
  let r := schemaLoop [] stream
  if r.2 then r.1 else schemaListed r.1

/-- The `field_to_collection` map of `detect_and_create_relationships`:
`f"{collection_name}Id" ↦ collection_name` for every known collection. -/
def fieldToCollection (names : List String) : List (String × String) :=
  names.foldl (fun m c => dictSet m (c ++ "Id") c) []

/-- One sampled record of the foreign-key loop, source-exact: a field found
in `field_to_collection` whose value is an ObjectId, or a list all of whose
elements are ObjectIds, overwrites `foreign_keys[field]` with the referenced
collection; any other value leaves `foreign_keys` unchanged. -/
def fkFieldStep (ftc : List (String × String)) (fk : List (String × String))
    (kv : String × Value) : List (String × String) :=
  match assocLookup ftc kv.1 with
  | none => fk
  | some refColl =>
    match kv.2 with
    | .vObjectId _ => dictSet fk kv.1 refColl
    | .vArr vs => if vs.all isObjectId then dictSet fk kv.1 refColl else fk
    | _ => fk

/-- All fields of one record, in order. -/
def fkDocStep (ftc : List (String × String)) (fk : List (String × String)) (doc : Doc) :
    List (String × String) :=
  doc.foldl (fkFieldStep ftc) fk

/-- The per-collection `foreign_keys` dictionary after sampling `docs`. -/
def detectForeignKeys (names : List String) (docs : List Doc) : List (String × String) :=
  docs.foldl (fkDocStep (fieldToCollection names)) []

/-- Cardinality of a ForeignKeyCandidate (spec §3). -/
inductive Card where
  | one
  | many
deriving DecidableEq

/-- The value-shape test of `detect_and_create_relationships` lines 188–193,
annotated with which branch fired: the `isinstance(value, ObjectId)` branch
is the spec's cardinality `one`, the
`isinstance(value, list) and all(isinstance(v, ObjectId) for v in value)`
branch is cardinality `many`.  Note that Python's `all` over an empty list
is `True`, so an empty array takes the `many` branch. -/
def candidateShape : Value → Option Card
  | .vObjectId _ => some .one
  | .vArr vs => if vs.all isObjectId then some .many else none
  | _ => none

/-- The foreign-key loop with the branch (cardinality) recorded next to the
referenced collection — the materialization of the spec's
ForeignKeyCandidate from the sampled evidence.  Structure identical to
`fkDocStep`. -/
def fkCandFieldStep (ftc : List (String × String)) (fk : List (String × (String × Card)))
    (kv : String × Value) : List (String × (String × Card)) :=
  match assocLookup ftc kv.1 with
  | none => fk
  | some refColl =>
    match candidateShape kv.2 with
    | some card => dictSet fk kv.1 (refColl, card)
    | none => fk

/-- All fields of one record, in order. -/
def fkCandDocStep (ftc : List (String × String)) (fk : List (String × (String × Card)))
    (doc : Doc) : List (String × (String × Card)) :=
  doc.foldl (fkCandFieldStep ftc) fk

/-- ForeignKeyCandidates (with cardinality) after sampling `docs`. -/
def foreignKeyCandidates (names : List String) (docs : List Doc) :
    List (String × (String × Card)) :=
  docs.foldl (fkCandDocStep (fieldToCollection names)) []

/-- The candidate shapes a single field takes across the sample, in record
order (spec-side projection used to state last-write-wins). -/
def candidateOccurrences (docs : List Doc) (field : String) : List Card :=
  docs.flatMap (fun d => d.filterMap (fun kv => if kv.1 = field then candidateShape kv.2 else none))

/-- The last candidate shape observed for a field across the sample. -/
def lastCandidate (docs : List Doc) (field : String) : Option Card :=
  (candidateOccurrences docs field).getLast?

/-! ## The graph store

Nodes are identified by `(label, merge-pattern props)` — both programs only
ever `SET` properties that are not part of any merge pattern, so this key is
stable.  `setProps` holds the properties written by `ON CREATE SET` /
`ON MATCH SET`, as a function (later sets override earlier ones); a property
reads from `setProps` first and falls back to the merge pattern. -/

/-- Property lists appearing in merge patterns and `SET` clauses. -/
abbrev PropList := List (String × String)

/-- A node key: label plus the merge-pattern properties it was merged on. -/
abbrev NodeKey := String × PropList

/-- A stored node. -/
structure GNode where
  key : NodeKey
  setProps : String → Option String

/-- A stored edge, identified (as under Cypher `MERGE`) by its type, its two
endpoints and its pattern properties. -/
structure GEdge where
  etype : String
  src : NodeKey
  dst : NodeKey
  props : PropList
deriving DecidableEq

/-- The graph store. -/
structure Graph where
  nodes : List GNode
  edges : List GEdge

/-- The empty store. -/
def Graph.empty : Graph := { nodes := [], edges := [] }

/-- Sequential `SET` clauses applied to a node's written properties. -/
def propsSetAll (f : String → Option String) (l : PropList) : String → Option String :=
  l.foldl (fun f kv => fun q => if q = kv.1 then some kv.2 else f q) f

/-- Reading a property of a node: written properties override the merge
pattern. -/
def fullProp (n : GNode) (k : String) : Option String :=
  match n.setProps k with
  | some v => some v
  | none => assocLookup n.key.2 k

/-- Whether a node matches a `(:Label {props})` pattern. -/
def nodeMatches (lbl : String) (pat : PropList) (n : GNode) : Bool :=
  n.key.1 = lbl && pat.all (fun kv => fullProp n kv.1 = some kv.2)

/-- The node created by `MERGE (:lbl pat) ON CREATE SET pc`. -/
def mkNode (lbl : String) (pat pc : PropList) : GNode :=
  { key := (lbl, pat), setProps := propsSetAll (fun _ => none) pc }

/-- Cypher `MERGE (n:lbl pat) ON CREATE SET pc ON MATCH SET pm`. -/
def applyMergeNode (g : Graph) (lbl : String) (pat pc pm : PropList) : Graph :=
  if g.nodes.any (nodeMatches lbl pat) then
    { g with nodes := g.nodes.map (fun n =>
        if nodeMatches lbl pat n then { n with setProps := propsSetAll n.setProps pm } else n) }
  else
    { g with nodes := g.nodes ++ [mkNode lbl pat pc] }

/-- Add an edge unless the same `(type, endpoints, props)` edge exists. -/
def edgeInsert (es : List GEdge) (e : GEdge) : List GEdge :=
  if e ∈ es then es else es ++ [e]

/-- Cypher `MATCH (s:sl spat), (d:tl tpat) MERGE (s)-[:etype eprops]->(d)`:
for every pair of matched endpoints, merge the edge; when either side
matches nothing, nothing happens. -/
def applyMergeEdge (g : Graph) (etype sl : String) (spat : PropList) (tl : String)
    (tpat : PropList) (eprops : PropList) : Graph :=
  let ss := g.nodes.filter (nodeMatches sl spat)
  let ds := g.nodes.filter (nodeMatches tl tpat)
  let news := ss.flatMap (fun s => ds.map (fun d =>
    ({ etype := etype, src := s.key, dst := d.key, props := eprops } : GEdge)))
  { g with edges := news.foldl edgeInsert g.edges }

/-- Cypher `MATCH (n) WHERE p(n) DETACH DELETE n`: remove the matching nodes and
every edge attached to one of them. -/
def applyDeleteWhere (g : Graph) (p : GNode → Bool) : Graph :=
  let removed := (g.nodes.filter p).map (·.key)
  { nodes := g.nodes.filter (fun n => !(p n)),
    edges := g.edges.filter (fun e => decide (e.src ∉ removed ∧ e.dst ∉ removed)) }

/-- One session operation issued by either program. -/
inductive Op where
  | constraint (lbl : String)
  | mergeNode (lbl : String) (pat pc pm : PropList)
  | mergeEdge (etype : String) (sl : String) (spat : PropList) (tl : String)
      (tpat : PropList) (eprops : PropList)
  | deleteLabel (lbl : String)
  | deleteByProp (k v : String)

/-- Effect of one operation on the store.  `CREATE CONSTRAINT IF NOT EXISTS`
never changes graph data and is idempotent, so it acts as the identity. -/
def applyOp (g : Graph) : Op → Graph
  | .constraint _ => g
  | .mergeNode l pat pc pm => applyMergeNode g l pat pc pm
  | .mergeEdge t sl sp tl tp ep => applyMergeEdge g t sl sp tl tp ep
  | .deleteLabel l => applyDeleteWhere g (fun n => n.key.1 = l)
  | .deleteByProp k v => applyDeleteWhere g (fun n => fullProp n k = some v)

/-- Running a whole trace of operations. -/
def applyTrace (ops : List Op) (g : Graph) : Graph := ops.foldl applyOp g

/-! ## The MongoDB schema extractor's session trace

`main` of `mongo_schema_extractor.py`: constraints, Root and Database
merges, the `CONTAINS` link, the Collection cleanup, then
`extract_schema_and_push_to_neo4j` and `detect_and_create_relationships`.
The database name is the hard-coded `"FanApp"`; `sample_size` is 100. -/

/-- Python `str(schema)` — a deterministic serialization of the inferred schema
attached to the Collection node (the exact Python repr format is irrelevant
to every claim; only determinism matters). -/
def serializeSchema (s : Schema) : String :=
  String.intercalate "; " (s.map (fun kv => kv.1 ++ ": [" ++ String.intercalate ", " kv.2 ++ "]"))

/-- The Root/Database/Collection property lists of `NODE_COLORS` and the
two `MERGE` statements of `main` (ON CREATE and ON MATCH set the same
values). -/
def mongoRootProps (rootName : String) : PropList :=
  [("name", rootName), ("project", rootName), ("color", "orange")]

/-- Properties set on the Database node by `main`. -/
def mongoDbProps (rootName : String) : PropList :=
  [("name", "FanApp"), ("project", rootName), ("color", "#00BFFF")]

/-- Properties set on a Collection node by `extract_schema_and_push_to_neo4j`. -/
def mongoCollProps (collName : String) (schema : Schema) : PropList :=
  [("name", collName), ("database", "FanApp"), ("color", "#8A2BE2"),
   ("schema", serializeSchema schema)]

/-- The trace prefix of `main` up to and including the Collection cleanup. -/
def mongoPre (rootName : String) : List Op :=
  [ .constraint "Root", .constraint "Database", .constraint "Collection",
    .mergeNode "Root" [("id", "root:" ++ rootName)]
      (mongoRootProps rootName) (mongoRootProps rootName),
    .mergeNode "Database" [("id", "mongo:FanApp")]
      (mongoDbProps rootName) (mongoDbProps rootName),
    .mergeEdge "CONTAINS" "Root" [("id", "root:" ++ rootName)]
      "Database" [("id", "mongo:FanApp")] [],
    .deleteLabel "Collection" ]

/-- The trace of `extract_schema_and_push_to_neo4j`: per collection, a
Collection merge carrying the serialized sampled schema, then the
`DECLARES` link from the Database node. -/
def mongoExtractOps (db : MongoDb) : List Op :=
  db.flatMap (fun c =>
    let cid := "mongo:FanApp." ++ c.1
    [ .mergeNode "Collection" [("id", cid)]
        (mongoCollProps c.1 (getCollectionSchema ((c.2.take 100).map Except.ok)))
        (mongoCollProps c.1 (getCollectionSchema ((c.2.take 100).map Except.ok))),
      .mergeEdge "DECLARES" "Database" [("id", "mongo:FanApp")] "Collection" [("id", cid)] [] ])

/-- The trace of `detect_and_create_relationships`: per collection, one
`REFERENCES` merge per entry of its `foreign_keys` dictionary. -/
def mongoDetectOps (db : MongoDb) : List Op :=
  db.flatMap (fun c =>
    (detectForeignKeys (db.map (·.1)) (c.2.take 100)).map (fun fr =>
      .mergeEdge "REFERENCES" "Collection" [("id", "mongo:FanApp." ++ c.1)]
        "Collection" [("id", "mongo:FanApp." ++ fr.2)] [("field", fr.1)]))

/-- The full session trace of one run of the MongoDB extractor's `main`. -/
def mongoTrace (rootName : String) (db : MongoDb) : List Op :=
  mongoPre rootName ++ (mongoExtractOps db ++ mongoDetectOps db)

/-- One full run of the MongoDB extractor against a store state. -/
def mongoRun (rootName : String) (db : MongoDb) (g : Graph) : Graph :=
  applyTrace (mongoTrace rootName db) g

/-! ## The code structure extractor's session trace

`analyzer.py`: cleanup by project tag, constraints, the Root merge, then an
`ast.NodeVisitor` walk per file.  `visit_ClassDef` merges a Class node and a
Root→Class `DECLARES` edge, sets the mutable `current_class`, recurses with
`generic_visit`, and then resets `current_class` to `None` (it does not
restore the previous value).  `visit_FunctionDef` merges a Method node (and
Class→Method edge) when `current_class` is set, a Function node (and
Root→Function edge) otherwise, and recurses with `generic_visit` in either
case. -/

/-- A parsed Python declaration tree (the fragment the visitor reacts to):
class and function definitions with their bodies, and any other node with
its visitable children. -/
inductive Stmt where
  | classDef (name : String) (lineno : Nat) (body : List Stmt)
  | funcDef (name : String) (lineno : Nat) (body : List Stmt)
  | other (children : List Stmt)

/-- A parsed source file: path and module body. -/
abbrev PyFile := String × List Stmt

/-- Python `os.path.relpath(file_path, "/app")` for paths under the project root. -/
def relToApp (p : String) : String :=
  if p.startsWith "/app/" then p.drop 5 else p

/-- Source `create_url` of `analyze_file`. -/
def createUrl (baseUrl filePath : String) (line : Nat) : String :=
  baseUrl ++ "/" ++ relToApp filePath ++ "#" ++ toString line

/-- The `ON CREATE SET` properties of a Class node. -/
def classProps (rootName filePath url nm : String) : PropList :=
  [("name", nm), ("project", rootName), ("file", filePath), ("url", url)]

/-- The `ON CREATE SET` properties of a Method node. -/
def methodProps (rootName filePath url nm classId : String) : PropList :=
  [("name", nm), ("classId", classId), ("project", rootName), ("file", filePath), ("url", url)]

mutual

/-- Source `AnalyzerVisitor.visit` on one node: the session operations it issues and
the value of the mutable `current_class` afterwards. -/
def visitStmt (rootName baseUrl filePath : String) (ctx : Option String) :
    Stmt → List Op × Option String
  | .classDef nm line body =>
    let classId := rootName ++ ":" ++ nm
    let r := visitStmts rootName baseUrl filePath (some classId) body
    ([ .mergeNode "Class" [("id", classId)]
         (classProps rootName filePath (createUrl baseUrl filePath line) nm) [],
       .mergeEdge "DECLARES" "Root" [("project", rootName)] "Class" [("id", classId)] [] ]
      ++ r.1, none)
  | .funcDef nm line body =>
    match ctx with
    | some classId =>
      let mId := classId ++ "." ++ nm
      let r := visitStmts rootName baseUrl filePath (some classId) body
      ([ .mergeNode "Method" [("id", mId)]
           (methodProps rootName filePath (createUrl baseUrl filePath line) nm classId) [],
         .mergeEdge "DECLARES" "Class" [("id", classId)] "Method" [("id", mId)] [] ]
        ++ r.1, r.2)
    | none =>
      let fId := rootName ++ ":" ++ nm
      let r := visitStmts rootName baseUrl filePath none body
      ([ .mergeNode "Function" [("id", fId)]
           (classProps rootName filePath (createUrl baseUrl filePath line) nm) [],
         .mergeEdge "DECLARES" "Root" [("project", rootName)] "Function" [("id", fId)] [] ]
        ++ r.1, r.2)
  | .other children => visitStmts rootName baseUrl filePath ctx children

/-- Source `generic_visit`: visit children left to right, threading the mutable
`current_class` field through. -/
def visitStmts (rootName baseUrl filePath : String) (ctx : Option String) :
    List Stmt → List Op × Option String
  | [] => ([], ctx)
  | s :: rest =>
    let r := visitStmt rootName baseUrl filePath ctx s
    let r2 := visitStmts rootName baseUrl filePath r.2 rest
    (r.1 ++ r2.1, r2.2)

end

/-- The session operations of `analyze_file` on one parsed file (a fresh
visitor per file, so `current_class` starts out `None`). -/
def fileOps (rootName baseUrl : String) (f : PyFile) : List Op :=
  (visitStmts rootName baseUrl f.1 none f.2).1

/-- The full session trace of one run of `analyzer.py` `main`: cleanup of
the previous run's project-tagged data, constraints, the Root merge
(`MERGE` on all three properties, no `SET`), then the directory walk. -/
def analyzerTrace (rootName baseUrl : String) (files : List PyFile) : List Op :=
  [ .deleteByProp "project" rootName,
    .constraint "Class", .constraint "Function", .constraint "Method",
    .mergeNode "Root" [("name", rootName), ("project", rootName), ("color", "orange")] [] [] ]
  ++ files.flatMap (fileOps rootName baseUrl)

/-- One full run of the code structure extractor against a store state. -/
def analyzerRun (rootName baseUrl : String) (files : List PyFile) (g : Graph) : Graph :=
  applyTrace (analyzerTrace rootName baseUrl files) g

/-! ## Store-state well-formedness -/

/-- Both endpoints of an edge are present in the store. -/
def EdgeEndpointsOk (g : Graph) (e : GEdge) : Prop :=
  (∃ n ∈ g.nodes, n.key = e.src) ∧ (∃ n ∈ g.nodes, n.key = e.dst)

/-- A well-formed store: no dangling edges (real property-graph stores
cannot represent an edge without its endpoints). -/
def Wf (g : Graph) : Prop := ∀ e ∈ g.edges, EdgeEndpointsOk g e

/-- The labels owned by the code structure extractor. -/
def analyzerLabels : List String := ["Root", "Class", "Function", "Method"]

/-- Every node of an extractor-owned label carries the run's project tag
(true of every state the analyzer itself produces; its scoped cleanup
deletes exactly the tagged nodes). -/
def ScopeTagged (rootName : String) (g : Graph) : Prop :=
  ∀ n ∈ g.nodes, n.key.1 ∈ analyzerLabels → fullProp n "project" = some rootName

/-! ## Dictionary lemmas -/

theorem assocLookup_nil (k : String) : assocLookup ([] : List (String × α)) k = none := rfl

theorem assocLookup_cons (p : String × α) (d : List (String × α)) (k : String) :
    assocLookup (p :: d) k = if p.1 = k then some p.2 else assocLookup d k := by
  simp only [assocLookup, List.find?_cons]
  by_cases h : p.1 = k <;> simp [h]

theorem lookup_map_upd_self (d : List (String × α)) (k : String) (v : α)
    (h : d.any (fun p => p.1 = k) = true) :
    assocLookup (d.map (fun p => if p.1 = k then (k, v) else p)) k = some v := by
  induction d with
  | nil => simp at h
  | cons q rest ih =>
    by_cases hq : q.1 = k
    · simp [assocLookup_cons, hq]
    · simp only [List.any_cons, hq, Bool.false_or, decide_eq_true_eq] at h
      simp only [List.map_cons, if_neg hq, assocLookup_cons, if_neg hq]
      exact ih (by simpa using h)

theorem lookup_map_upd_other (d : List (String × α)) (k k' : String) (v : α) (hk : k' ≠ k) :
    assocLookup (d.map (fun p => if p.1 = k then (k, v) else p)) k' = assocLookup d k' := by
  induction d with
  | nil => rfl
  | cons q rest ih =>
    by_cases hq : q.1 = k
    · have hq' : ¬ (q.1 = k') := by rw [hq]; exact fun h => hk h.symm
      simp only [List.map_cons, if_pos hq, assocLookup_cons, if_neg hq', ih,
        if_neg (fun h : k = k' => hk h.symm)]
    · simp only [List.map_cons, if_neg hq, assocLookup_cons, ih]

theorem lookup_append_single_self (d : List (String × α)) (k : String) (v : α)
    (h : d.any (fun p => p.1 = k) = false) :
    assocLookup (d ++ [(k, v)]) k = some v := by
  induction d with
  | nil => simp [assocLookup_cons]
  | cons q rest ih =>
    simp only [List.any_cons, Bool.or_eq_false_iff, decide_eq_false_iff_not] at h
    simp only [List.cons_append, assocLookup_cons, if_neg h.1]
    exact ih (by simpa using h.2)

theorem lookup_append_single_other (d : List (String × α)) (k k' : String) (v : α)
    (hk : k' ≠ k) :
    assocLookup (d ++ [(k, v)]) k' = assocLookup d k' := by
  induction d with
  | nil => simp [assocLookup_cons, assocLookup_nil]; exact fun h => hk h.symm
  | cons q rest ih =>
    simp only [List.cons_append, assocLookup_cons, ih]

theorem assocLookup_dictSet (d : List (String × α)) (k k' : String) (v : α) :
    assocLookup (dictSet d k v) k' = if k' = k then some v else assocLookup d k' := by
  unfold dictSet
  by_cases hk : k' = k
  · subst hk
    cases h : d.any (fun p => p.1 = k') with
    | true => simp only [h, if_true, if_pos rfl]; exact lookup_map_upd_self d k' v h
    | false => simp only [h, if_false, if_pos rfl]; exact lookup_append_single_self d k' v h
  · cases h : d.any (fun p => p.1 = k) with
    | true => simp only [h, if_true, if_neg hk]; exact lookup_map_upd_other d k k' v hk
    | false => simp only [h, if_false, if_neg hk]; exact lookup_append_single_other d k k' v hk

/-- Cancel a shared suffix of two strings. -/
theorem strAppendCancelRight (a b s : String) (h : a ++ s = b ++ s) : a = b := by
  have hd : a.data ++ s.data = b.data ++ s.data := by
    have := congrArg String.data h
    simpa [String.data_append] using this
  have h2 := List.append_cancel_right hd
  cases a; cases b; simp_all

/-! ## Schema-inference lemmas (claims C7, C8) -/

/-- The sampling loop consumes clean records as a pure fold. -/
theorem schemaLoop_ok_append (docs : List Doc) (s : Schema) (tl : List (Except Unit Doc)) :
    schemaLoop s (docs.map Except.ok ++ tl) = schemaLoop (docs.foldl updateDoc s) tl := by
  induction docs generalizing s with
  | nil => rfl
  | cons d rest ih => simpa [schemaLoop] using ih (updateDoc s d)

/-- Converting the accumulated sets to lists is the identity on the model. -/
theorem schemaListed_eq (s : Schema) : schemaListed s = s := by
  simp [schemaListed]

/-- The types a single field takes across a record, in field order. -/
def docObservedTypes (doc : Doc) (field : String) : List String :=
  doc.filterMap (fun kv => if kv.1 = field then some (typeName kv.2) else none)

/-- The types a single field takes across the whole sample, in observation
order (a spec-side projection used to state the schema characterization). -/
def observedTypes (docs : List Doc) (field : String) : List String :=
  docs.flatMap (fun d => docObservedTypes d field)

/-- Lookup after one record of the schema loop: the field's entry is the
previous entry (empty when absent) extended with every type the record
shows for it, deduplicated in order. -/
theorem lookup_updateDoc (s : Schema) (doc : Doc) (field : String) :
    assocLookup (updateDoc s doc) field =
      match docObservedTypes doc field with
      | [] => assocLookup s field
      | ts => some (ts.foldl insertNew ((assocLookup s field).getD [])) := by
  induction doc generalizing s with
  | nil => rfl
  | cons kv rest ih =>
    by_cases hf : kv.1 = field
    · have step : updateDoc s (kv :: rest) =
          updateDoc (dictSet s field (insertNew ((assocLookup s field).getD []) (typeName kv.2))) rest := by
        simp [updateDoc, hf]
      have hobs : docObservedTypes (kv :: rest) field
          = typeName kv.2 :: docObservedTypes rest field := by
        simp [docObservedTypes, hf]
      rw [step, ih, hobs]
      have hsets : assocLookup
          (dictSet s field (insertNew ((assocLookup s field).getD []) (typeName kv.2))) field
          = some (insertNew ((assocLookup s field).getD []) (typeName kv.2)) := by
        simp [assocLookup_dictSet]
      cases hr : docObservedTypes rest field with
      | nil => simp [hsets]
      | cons t ts => simp [hsets]
    · have step : updateDoc s (kv :: rest) =
          updateDoc (dictSet s kv.1 (insertNew ((assocLookup s kv.1).getD []) (typeName kv.2))) rest := by
        simp [updateDoc]
      have hobs : docObservedTypes (kv :: rest) field = docObservedTypes rest field := by
        simp [docObservedTypes, hf]
      have hkeep : assocLookup
          (dictSet s kv.1 (insertNew ((assocLookup s kv.1).getD []) (typeName kv.2))) field
          = assocLookup s field := by
        rw [assocLookup_dictSet, if_neg (fun h => hf h.symm)]
      rw [step, ih, hobs, hkeep]

/-- Lookup after the whole schema fold. -/
theorem lookup_schemaFold (docs : List Doc) (s : Schema) (field : String) :
    assocLookup (docs.foldl updateDoc s) field =
      match observedTypes docs field with
      | [] => assocLookup s field
      | ts => some (ts.foldl insertNew ((assocLookup s field).getD [])) := by
  induction docs generalizing s with
  | nil => rfl
  | cons d rest ih =>
    have hobs : observedTypes (d :: rest) field
        = docObservedTypes d field ++ observedTypes rest field := by
      simp [observedTypes]
    rw [List.foldl_cons, ih, hobs, lookup_updateDoc]
    cases hd : docObservedTypes d field with
    | nil => simp
    | cons t ts =>
      cases hr : observedTypes rest field with
      | nil => simp
      | cons u us => simp [List.foldl_append]

/-- C7: if reading the sample throws after some records have been processed,
`get_collection_schema` returns the field-to-observed-type-set mapping
accumulated from the records read before the error — the same fold it would
have computed over exactly those records — rather than raising or returning
an empty mapping. -/
theorem partial_schema_on_read_error (docs : List Doc) (rest : List (Except Unit Doc)) :
    getCollectionSchema (docs.map Except.ok ++ Except.error () :: rest)
      = docs.foldl updateDoc [] := by
  unfold getCollectionSchema
  rw [schemaLoop_ok_append]
  rfl

/-- Only an explicit BSON null reports the `NoneType` tag. -/
theorem typeName_noneType_iff (v : Value) : typeName v = "NoneType" ↔ v = Value.vNull := by
  cases v <;> simp [typeName]

/-- C8: on a clean sample, a field appears in the inferred schema exactly
when some record carries it, and then with precisely the type names observed
for it (deduplicated in observation order); records lacking the field
contribute nothing, and a `NoneType` tag appears among the observations only
when some record explicitly holds a null for the field. -/
theorem sparse_field_schema_characterization (docs : List Doc) (field : String) :
    (assocLookup (getCollectionSchema (docs.map Except.ok)) field =
      match observedTypes docs field with
      | [] => none
      | ts => some (ts.foldl insertNew []))
    ∧ ("NoneType" ∈ observedTypes docs field ↔ ∃ d ∈ docs, (field, Value.vNull) ∈ d) := by
  constructor
  · have hclean : getCollectionSchema (docs.map Except.ok) = docs.foldl updateDoc [] := by
      unfold getCollectionSchema
      have : docs.map Except.ok = docs.map Except.ok ++ ([] : List (Except Unit Doc)) := by simp
      rw [this, schemaLoop_ok_append]
      simp [schemaLoop, schemaListed_eq]
    rw [hclean, lookup_schemaFold]
    cases observedTypes docs field <;> simp [assocLookup_nil]
  · constructor
    · intro hmem
      obtain ⟨d, hd, hobs⟩ := List.mem_flatMap.mp hmem
      obtain ⟨kv, hkv, heq⟩ := List.mem_filterMap.mp hobs
      by_cases hf : kv.1 = field
      · simp only [hf, if_pos rfl] at heq
        have hv : kv.2 = Value.vNull := (typeName_noneType_iff kv.2).mp (by injection heq)
        refine ⟨d, hd, ?_⟩
        have : kv = (field, Value.vNull) := Prod.ext hf hv
        rwa [this] at hkv
      · simp [hf] at heq
    · rintro ⟨d, hd, hmem⟩
      refine List.mem_flatMap.mpr ⟨d, hd, ?_⟩
      refine List.mem_filterMap.mpr ⟨(field, Value.vNull), hmem, by simp [typeName]⟩

/-! ## Foreign-key detection lemmas (claims C1, C2) -/

/-- The candidate shapes one record shows for one field, in field order. -/
def docCandidates (doc : Doc) (field : String) : List Card :=
  doc.filterMap (fun kv => if kv.1 = field then candidateShape kv.2 else none)

theorem candidateOccurrences_eq (docs : List Doc) (field : String) :
    candidateOccurrences docs field = docs.flatMap (fun d => docCandidates d field) := rfl

/-- Lookup after one record of the foreign-key candidate loop:
unmatched field names never change, a matched field name ends at the
record's last candidate shape (earlier shapes of the same record and the
previous value are overwritten), and non-candidate shapes leave the
previous value alone. -/
theorem lookup_fkCandDocStep (ftc : List (String × String))
    (fk : List (String × (String × Card))) (doc : Doc) (field : String) :
    assocLookup (fkCandDocStep ftc fk doc) field =
      match assocLookup ftc field with
      | none => assocLookup fk field
      | some X =>
        match (docCandidates doc field).getLast? with
        | none => assocLookup fk field
        | some c => some (X, c) := by
  induction doc generalizing fk with
  | nil => cases assocLookup ftc field <;> rfl
  | cons kv rest ih =>
    have hstep : fkCandDocStep ftc fk (kv :: rest)
        = fkCandDocStep ftc (fkCandFieldStep ftc fk kv) rest := rfl
    rw [hstep, ih]
    by_cases hf : kv.1 = field
    · subst hf
      cases hftc : assocLookup ftc kv.1 with
      | none => simp only [hftc, fkCandFieldStep]
      | some X =>
        simp only [hftc, fkCandFieldStep]
        cases hc : candidateShape kv.2 with
        | none =>
          have hd : docCandidates (kv :: rest) kv.1 = docCandidates rest kv.1 := by
            simp [docCandidates, hc]
          rw [hd]
        | some c =>
          have hd : docCandidates (kv :: rest) kv.1 = c :: docCandidates rest kv.1 := by
            simp [docCandidates, hc]
          rw [hd]
          cases hr : docCandidates rest kv.1 with
          | nil => simp [assocLookup_dictSet]
          | cons c0 cs =>
            cases hl : (c0 :: cs).getLast? with
            | none => simp [List.getLast?_eq_none_iff] at hl
            | some cl => rw [List.getLast?_cons_cons, hl]
    · have hd : docCandidates (kv :: rest) field = docCandidates rest field := by
        simp [docCandidates, hf]
      rw [hd]
      have hkeep : assocLookup (fkCandFieldStep ftc fk kv) field = assocLookup fk field := by
        unfold fkCandFieldStep
        cases assocLookup ftc kv.1 with
        | none => rfl
        | some X =>
          cases candidateShape kv.2 with
          | none => rfl
          | some c => rw [assocLookup_dictSet, if_neg (fun hh => hf hh.symm)]
      rw [hkeep]

/-- Lookup after the whole foreign-key candidate fold: last write wins
across the sample. -/
theorem lookup_fkCandFold (ftc : List (String × String))
    (fk0 : List (String × (String × Card))) (docs : List Doc) (field : String) :
    assocLookup (docs.foldl (fkCandDocStep ftc) fk0) field =
      match assocLookup ftc field with
      | none => assocLookup fk0 field
      | some X =>
        match (docs.flatMap (fun d => docCandidates d field)).getLast? with
        | none => assocLookup fk0 field
        | some c => some (X, c) := by
  induction docs generalizing fk0 with
  | nil => cases assocLookup ftc field <;> rfl
  | cons d rest ih =>
    rw [List.foldl_cons, ih]
    cases hftc : assocLookup ftc field with
    | none => simp only [lookup_fkCandDocStep, hftc]
    | some X =>
      simp only [lookup_fkCandDocStep, hftc, List.flatMap_cons, List.getLast?_append]
      cases hr : (rest.flatMap (fun d => docCandidates d field)).getLast? with
      | some c => rfl
      | none => cases hd : (docCandidates d field).getLast? <;> rfl

/-- Characterization of the `field_to_collection` fold. -/
theorem lookup_fieldToCollection_aux (names : List String) (m0 : List (String × String))
    (field : String) :
    assocLookup (names.foldl (fun m c => dictSet m (c ++ "Id") c) m0) field =
      match names.find? (fun c => field = c ++ "Id") with
      | some c => some c
      | none => assocLookup m0 field := by
  induction names generalizing m0 with
  | nil => rfl
  | cons c rest ih =>
    rw [List.foldl_cons, ih]
    by_cases hc : field = c ++ "Id"
    · rw [List.find?_cons_of_pos _ (by simpa using hc)]
      cases hfind : rest.find? (fun c' => field = c' ++ "Id") with
      | some c' =>
        have hp : field = c' ++ "Id" := by simpa using List.find?_some hfind
        have : c' = c := strAppendCancelRight c' c "Id" (hp ▸ hc)
        rw [this]
      | none => rw [assocLookup_dictSet, if_pos hc]
    · rw [List.find?_cons_of_neg _ (by simpa using hc)]
      cases hfind : rest.find? (fun c' => field = c' ++ "Id") with
      | some c' => rfl
      | none => rw [assocLookup_dictSet, if_neg hc]

/-- A field name resolves in `field_to_collection` exactly when it is a known
collection name suffixed with `Id` (exact, case-sensitive equality). -/
theorem lookup_fieldToCollection (names : List String) (field X : String) :
    assocLookup (fieldToCollection names) field = some X ↔ X ∈ names ∧ field = X ++ "Id" := by
  unfold fieldToCollection
  rw [lookup_fieldToCollection_aux]
  constructor
  · intro h
    cases hfind : names.find? (fun c => field = c ++ "Id") with
    | none => rw [hfind] at h; exact absurd h (by simp [assocLookup_nil])
    | some c =>
      rw [hfind] at h
      have hc : c = X := by injection h
      subst hc
      exact ⟨List.mem_of_find?_eq_some hfind, by simpa using List.find?_some hfind⟩
  · rintro ⟨hmem, heq⟩
    cases hfind : names.find? (fun c => field = c ++ "Id") with
    | none =>
      exfalso
      exact absurd (by simpa using List.find?_eq_none.mp hfind X hmem) (by simp [heq])
    | some c =>
      have hp : field = c ++ "Id" := by simpa using List.find?_some hfind
      have : c = X := strAppendCancelRight c X "Id" (hp ▸ heq)
      rw [this]

/-- Dropping the cardinality annotation from a candidate entry. -/
def projFK : (String × (String × Card)) → (String × String) := fun p => (p.1, p.2.1)

theorem dictSet_map_val (l : List (String × β)) (f : β → γ) (k : String) (v : β) :
    (dictSet l k v).map (fun p => (p.1, f p.2)) = dictSet (l.map (fun p => (p.1, f p.2))) k (f v) := by
  unfold dictSet
  have hany : (l.map (fun p => (p.1, f p.2))).any (fun p => p.1 = k)
      = l.any (fun p => p.1 = k) := by
    induction l with
    | nil => rfl
    | cons p rest ih => simp [List.any_cons, ih]
  rw [hany]
  by_cases h : l.any (fun p => p.1 = k)
  · simp only [h, if_true, List.map_map]
    apply List.map_congr_left
    intro p _
    by_cases hk : p.1 = k <;> simp [hk]
  · simp [h]

theorem assocLookup_map_val (l : List (String × β)) (f : β → γ) (k : String) :
    assocLookup (l.map (fun p => (p.1, f p.2))) k = (assocLookup l k).map f := by
  induction l with
  | nil => rfl
  | cons p rest ih =>
    by_cases hp : p.1 = k <;> simp [assocLookup_cons, hp, ih]

/-- The map `dictSet` commutes with erasing the cardinality annotation. -/
theorem dictSet_projFK (l : List (String × (String × Card))) (k : String) (v : String × Card) :
    (dictSet l k v).map projFK = dictSet (l.map projFK) k v.1 := by
  have h := dictSet_map_val l (fun c => c.1) k v
  simpa [projFK] using h

/-- The source-exact foreign-key step is the cardinality-annotated step with
the annotation erased. -/
theorem fkFieldStep_map (ftc : List (String × String)) (fk : List (String × (String × Card)))
    (kv : String × Value) :
    fkFieldStep ftc (fk.map projFK) kv = (fkCandFieldStep ftc fk kv).map projFK := by
  unfold fkFieldStep fkCandFieldStep
  cases assocLookup ftc kv.1 with
  | none => rfl
  | some X =>
    cases hv : kv.2 with
    | vObjectId oid => exact (dictSet_projFK fk kv.1 (X, Card.one)).symm
    | vArr vs =>
      by_cases hall : vs.all isObjectId
      · simp only [candidateShape, hall, if_pos]
        exact (dictSet_projFK fk kv.1 (X, Card.many)).symm
      · simp only [candidateShape, hall, if_neg, Bool.false_eq_true, if_false]
    | vStr s => rfl
    | vInt n => rfl
    | vBool b => rfl
    | vNull => rfl

/-- One record of the source-exact loop, with annotation erased. -/
theorem fkDocStep_map (ftc : List (String × String)) (fk : List (String × (String × Card)))
    (doc : Doc) :
    fkDocStep ftc (fk.map projFK) doc = (fkCandDocStep ftc fk doc).map projFK := by
  induction doc generalizing fk with
  | nil => rfl
  | cons kv rest ih =>
    have h1 : fkDocStep ftc (fk.map projFK) (kv :: rest)
        = fkDocStep ftc (fkFieldStep ftc (fk.map projFK) kv) rest := rfl
    have h2 : fkCandDocStep ftc fk (kv :: rest)
        = fkCandDocStep ftc (fkCandFieldStep ftc fk kv) rest := rfl
    rw [h1, h2, fkFieldStep_map]
    exact ih _

theorem foldl_fkDocStep_map (ftc : List (String × String)) (docs : List Doc)
    (fk : List (String × (String × Card))) :
    docs.foldl (fkDocStep ftc) (fk.map projFK) = (docs.foldl (fkCandDocStep ftc) fk).map projFK := by
  induction docs generalizing fk with
  | nil => rfl
  | cons d rest ih => rw [List.foldl_cons, List.foldl_cons, fkDocStep_map, ih]

theorem detectForeignKeys_eq_map (names : List String) (docs : List Doc) :
    detectForeignKeys names docs = (foreignKeyCandidates names docs).map projFK := by
  unfold detectForeignKeys foreignKeyCandidates
  have := foldl_fkDocStep_map (fieldToCollection names) docs []
  simpa using this

/-- C2 (counterexample): a record whose only candidate-named field holds an
*empty* array still records a foreign-key candidate — Python's `all` over an
empty list is `True` — contradicting the claim that an empty array records
no candidate.  Shown on the source-exact dictionary and on the annotated
one (cardinality `many`, the list branch). -/
theorem empty_array_records_candidate :
    assocLookup (detectForeignKeys ["Users"] [[("UsersId", Value.vArr [])]]) "UsersId"
      = some "Users"
    ∧ assocLookup (foreignKeyCandidates ["Users"] [[("UsersId", Value.vArr [])]]) "UsersId"
      = some ("Users", Card.many) := by
  constructor <;> rfl

/-- C2 (amended): for a field that matches a known collection name suffixed
with `Id` (first conjunct characterizes that matching), a single reference-id
value records a candidate of cardinality one and an array — *empty or not* —
all of whose elements are reference-ids records a candidate of cardinality
many (both via `candidateShape`); any other shape records nothing and does
not invalidate candidates recorded from other records: the fold's final
entry is exactly the last candidate-shaped occurrence across the sample.
The last conjunct ties the annotated dictionary to the source-exact one. -/
theorem foreign_key_candidate_characterization (names : List String) (docs : List Doc)
    (field X : String) :
    (assocLookup (foreignKeyCandidates names docs) field =
      (assocLookup (fieldToCollection names) field).bind
        (fun refc => (lastCandidate docs field).map (fun c => (refc, c))))
    ∧ (assocLookup (fieldToCollection names) field = some X ↔ X ∈ names ∧ field = X ++ "Id")
    ∧ detectForeignKeys names docs = (foreignKeyCandidates names docs).map projFK := by
  refine ⟨?_, lookup_fieldToCollection names field X, detectForeignKeys_eq_map names docs⟩
  unfold foreignKeyCandidates
  rw [lookup_fkCandFold]
  unfold lastCandidate
  rw [candidateOccurrences_eq]
  cases assocLookup (fieldToCollection names) field with
  | none => rfl
  | some refc =>
    cases (docs.flatMap (fun d => docCandidates d field)).getLast? with
    | none => rfl
    | some c => rfl

/-! ## Connection bootstrap (claims C6, C10)

`create_neo4j_driver` in either file: up to `max_retries = 100` liveness
probes (`RETURN 1`); a failed probe sleeps `delay` and scales it by the
backoff multiplier (1.5 in the MongoDB variant, 2 in the code variant),
starting from 5 seconds.  The probe is modelled as a function from the
attempt index to success. -/

/-- Result of the bootstrap loop: a session after `attempts` probes having
slept `sleeps`, or exhaustion. -/
inductive ConnectOutcome where
  | connected (attempts : Nat) (sleeps : List ℚ)
  | exhausted (sleeps : List ℚ)
deriving DecidableEq

/-- Python `for attempt in range(fuel)` starting at index `a` with current `delay`. -/
def connectLoop (probe : Nat → Bool) (mult : ℚ) : Nat → Nat → ℚ → ConnectOutcome
  | 0, _, _ => .exhausted []
  | fuel + 1, a, d =>
    if probe a then .connected (a + 1) []
    else
      match connectLoop probe mult fuel (a + 1) (d * mult) with
      | .connected n sl => .connected n (d :: sl)
      | .exhausted sl => .exhausted (d :: sl)

/-- Result of the MongoDB variant's `create_neo4j_driver`, which guards on
configuration before building the driver. -/
inductive MongoDriverResult where
  | envError
  | ok (r : ConnectOutcome)
deriving DecidableEq

/-- Python falsiness of `os.getenv(...)`: unset (`None`) or empty string. -/
def isBlank : Option String → Bool
  | none => true
  | some s => s = ""

/-- Source `create_neo4j_driver` of `mongo_schema_extractor.py`: raises when any of
the three variables is unset or empty, otherwise probes with multiplier 1.5,
initial delay 5, at most 100 attempts. -/
def createNeo4jDriverMongo (env : String → Option String) (probe : Nat → Bool) :
    MongoDriverResult :=
  if isBlank (env "NEO4J_URI") || isBlank (env "NEO4J_USER")
      || isBlank (env "NEO4J_PASSWORD") then
    .envError
  else
    .ok (connectLoop probe (3 / 2 : ℚ) 100 0 5)

/-- Source `create_neo4j_driver` of `analyzer.py`: no configuration guard,
multiplier 2, initial delay 5, at most 100 attempts. -/
def createNeo4jDriverPy (probe : Nat → Bool) : ConnectOutcome :=
  connectLoop probe (2 : ℚ) 100 0 5

/-- C6: when the liveness probe fails on the first two attempts and succeeds
on the third, both variants return a session after exactly 3 probe attempts
having slept exactly twice: the initial delay, then the initial delay scaled
once by the multiplier — 5 then 7.5 seconds for the document-schema variant
(multiplier 1.5), 5 then 10 seconds for the code variant (multiplier 2). -/
theorem bootstrap_retry_three_attempts (env : String → Option String) (probe : Nat → Bool)
    (h0 : probe 0 = false) (h1 : probe 1 = false) (h2 : probe 2 = true)
    (henv : isBlank (env "NEO4J_URI") = false ∧ isBlank (env "NEO4J_USER") = false
      ∧ isBlank (env "NEO4J_PASSWORD") = false) :
    createNeo4jDriverMongo env probe = .ok (.connected 3 [5, 15 / 2])
    ∧ createNeo4jDriverPy probe = .connected 3 [5, 10] := by
  have hloop : ∀ (m : ℚ) (d : ℚ), connectLoop probe m 100 0 d
      = .connected 3 [d, d * m] := by
    intro m d
    have e1 : connectLoop probe m 100 0 d
        = if probe 0 then .connected 1 [] else
            match connectLoop probe m 99 1 (d * m) with
            | .connected n sl => .connected n (d :: sl)
            | .exhausted sl => .exhausted (d :: sl) := rfl
    have e2 : connectLoop probe m 99 1 (d * m)
        = if probe 1 then .connected 2 [] else
            match connectLoop probe m 98 2 (d * m * m) with
            | .connected n sl => .connected n (d * m :: sl)
            | .exhausted sl => .exhausted (d * m :: sl) := rfl
    have e3 : connectLoop probe m 98 2 (d * m * m)
        = if probe 2 then .connected 3 [] else
            match connectLoop probe m 97 3 (d * m * m * m) with
            | .connected n sl => .connected n (d * m * m :: sl)
            | .exhausted sl => .exhausted (d * m * m :: sl) := rfl
    rw [e1, h0, e2, h1, e3, h2]
    rfl
  constructor
  · unfold createNeo4jDriverMongo
    rw [henv.1, henv.2.1, henv.2.2]
    simp only [Bool.or_self, Bool.or_false, if_false]
    rw [hloop]
    norm_num
  · unfold createNeo4jDriverPy
    rw [hloop]
    norm_num

/-- Witness for C6 at a concrete probe that fails twice then succeeds. -/
theorem bootstrap_retry_three_attempts_witness :
    createNeo4jDriverMongo (fun _ => some "x") (fun n => decide (2 ≤ n))
      = .ok (.connected 3 [5, 15 / 2])
    ∧ createNeo4jDriverPy (fun n => decide (2 ≤ n)) = .connected 3 [5, 10] :=
  bootstrap_retry_three_attempts (fun _ => some "x") (fun n => decide (2 ≤ n))
    (by decide) (by decide) (by decide) ⟨rfl, rfl, rfl⟩

/-- C10: with any of the three connection variables unset or empty, the
document-schema variant raises before building the driver: the result is the
configuration error, and it does not depend on the probe at all — zero
liveness probes, zero sleeps, zero retries. -/
theorem missing_env_raises (env : String → Option String) (probe : Nat → Bool)
    (h : isBlank (env "NEO4J_URI") = true ∨ isBlank (env "NEO4J_USER") = true
      ∨ isBlank (env "NEO4J_PASSWORD") = true) :
    createNeo4jDriverMongo env probe = .envError
    ∧ ∀ probeOther : Nat → Bool,
        createNeo4jDriverMongo env probe = createNeo4jDriverMongo env probeOther := by
  have hcond : (isBlank (env "NEO4J_URI") || isBlank (env "NEO4J_USER")
      || isBlank (env "NEO4J_PASSWORD")) = true := by
    rcases h with h | h | h <;> simp [h]
  constructor
  · unfold createNeo4jDriverMongo
    rw [hcond]
    rfl
  · intro probeOther
    unfold createNeo4jDriverMongo
    rw [hcond]
    rfl

/-- Witness for C10 with all three variables unset. -/
theorem missing_env_raises_witness :
    createNeo4jDriverMongo (fun _ => none) (fun _ => true) = .envError :=
  (missing_env_raises (fun _ => none) (fun _ => true) (Or.inl rfl)).1

/-! ## End-to-end scenario (claim C1) -/

/-- The spec §8 scenario database: `Users` with `_id`/`name`, `Orders` with
`_id`/`userId` holding a single reference id. -/
def usersOrdersDb : MongoDb :=
  [ ("Users",  [[("_id", Value.vObjectId "u1"), ("name", Value.vStr "Alice")]]),
    ("Orders", [[("_id", Value.vObjectId "o1"), ("userId", Value.vObjectId "u1")]]) ]

/-- C1 (counterexample): on the claimed scenario the run does create the two
Collection nodes, but it creates *no* `REFERENCES` edge at all — so there is
no edge from Orders to Users with `field = "userId"`, let alone exactly one.
The heuristic maps collection `Users` to candidate field `UsersId`, and
`userId` matches nothing case-sensitively. -/
theorem users_orders_no_references_edge :
    (mongoRun "TestRoot" usersOrdersDb Graph.empty).nodes.any
      (fun n => n.key = ("Collection", [("id", "mongo:FanApp.Users")])) = true
    ∧ (mongoRun "TestRoot" usersOrdersDb Graph.empty).nodes.any
      (fun n => n.key = ("Collection", [("id", "mongo:FanApp.Orders")])) = true
    ∧ (mongoRun "TestRoot" usersOrdersDb Graph.empty).edges.any
      (fun e => e.etype = "REFERENCES") = false := by
  refine ⟨by decide, by decide, by decide⟩

/-- The renamed-field variant of the scenario: the `Orders` records carry a
field literally named `UsersId`, the one name the heuristic maps to the
`Users` collection. -/
def usersOrdersDbRenamed : MongoDb :=
  [ ("Users",  [[("_id", Value.vObjectId "u1"), ("name", Value.vStr "Alice")]]),
    ("Orders", [[("_id", Value.vObjectId "o1"), ("UsersId", Value.vObjectId "u1")]]) ]

/-- C1 (amended): on the `Users`/`Orders` scenario the run produces both
Collection nodes and no `REFERENCES` edge whatsoever: no record field named
`userId` resolves in `field_to_collection` (the heuristic would require a
field named `UsersId`), the per-collection `foreign_keys` dictionaries are
empty, and the whole session trace contains no `REFERENCES` merge.  On the
renamed-field variant, where the `Orders` records carry the field `UsersId`,
the run produces exactly one `REFERENCES` edge — from the Orders Collection
node to the Users Collection node, carrying `field = "UsersId"`. -/
theorem users_orders_end_to_end :
    assocLookup (fieldToCollection ["Users", "Orders"]) "userId" = none
    ∧ detectForeignKeys ["Users", "Orders"]
        [[("_id", Value.vObjectId "o1"), ("userId", Value.vObjectId "u1")]] = []
    ∧ (mongoTrace "TestRoot" usersOrdersDb).all
        (fun op => match op with
          | .mergeEdge t _ _ _ _ _ => !(t = "REFERENCES")
          | _ => true) = true
    ∧ (mongoRun "TestRoot" usersOrdersDb Graph.empty).nodes.any
        (fun n => n.key = ("Collection", [("id", "mongo:FanApp.Users")])) = true
    ∧ (mongoRun "TestRoot" usersOrdersDb Graph.empty).nodes.any
        (fun n => n.key = ("Collection", [("id", "mongo:FanApp.Orders")])) = true
    ∧ (mongoRun "TestRoot" usersOrdersDbRenamed Graph.empty).edges.filter
        (fun e => e.etype = "REFERENCES")
      = [⟨"REFERENCES", ("Collection", [("id", "mongo:FanApp.Orders")]),
          ("Collection", [("id", "mongo:FanApp.Users")]), [("field", "UsersId")]⟩] := by
  refine ⟨by decide, by decide, by decide, by decide, by decide, by decide⟩

/-! ## Nested declarations (claim C9) -/

/-- Does an operation merge a node with the given label and id? -/
def isMergeNodeWithId (lbl ident : String) : Op → Bool
  | .mergeNode l pat _ _ => l = lbl && pat = [("id", ident)]
  | _ => false

/-- C9 (counterexample): the visitor recurses into nested declarations via
`generic_visit`, so a class nested inside a class emits a Class node and a
function nested inside a top-level function emits a Function node —
contradicting the claim that nested declarations produce no NodeFact. -/
theorem nested_decls_emit_nodes :
    ((visitStmt "proj" "http://b" "/app/m.py" none
        (.classDef "A" 1 [.classDef "B" 2 []])).1.any
      (isMergeNodeWithId "Class" "proj:B")) = true
    ∧ ((visitStmt "proj" "http://b" "/app/m.py" none
        (.funcDef "f" 1 [.funcDef "g" 2 []])).1.any
      (isMergeNodeWithId "Function" "proj:g")) = true := by
  refine ⟨by decide, by decide⟩

/-- C9 (amended): the extractor does descend into nested declarations and
emits node facts for them: a class nested first in a class body emits a
Class node under the top-level key scheme, a function nested first in a
top-level function body emits a Function node, and a function nested first
in a method body emits a Method node keyed under the enclosing class. -/
theorem nested_decls_amended (r b f a nb cid : String) (l l' : Nat)
    (body rest : List Stmt) (ctx : Option String) :
    ((visitStmt r b f ctx (.classDef a l (.classDef nb l' body :: rest))).1.any
      (isMergeNodeWithId "Class" (r ++ ":" ++ nb))) = true
    ∧ ((visitStmt r b f none (.funcDef a l (.funcDef nb l' body :: rest))).1.any
      (isMergeNodeWithId "Function" (r ++ ":" ++ nb))) = true
    ∧ ((visitStmt r b f (some cid) (.funcDef a l (.funcDef nb l' body :: rest))).1.any
      (isMergeNodeWithId "Method" (cid ++ "." ++ nb))) = true := by
  refine ⟨?_, ?_, ?_⟩ <;>
    simp [visitStmt, visitStmts, List.any_append, isMergeNodeWithId]

/-! ## Phase ordering (claim C4) -/

/-- Coarse classification of session operations into the spec's three
phases. -/
inductive OpKind where
  | constraintDecl
  | upsert
  | cleanup
deriving DecidableEq

/-- The phase an operation belongs to. -/
def opKind : Op → OpKind
  | .constraint _ => .constraintDecl
  | .mergeNode _ _ _ _ => .upsert
  | .mergeEdge _ _ _ _ _ _ => .upsert
  | .deleteLabel _ => .cleanup
  | .deleteByProp _ _ => .cleanup

/-- C4 (counterexample): in the MongoDB variant three node/edge MERGEs (Root,
Database, CONTAINS — positions 3–5) are issued *before* the cleanup
(position 6), and in the code variant the cleanup (position 0) is issued
*before* the constraint declarations (positions 1–3) — both contradicting
the claimed strict constraint → cleanup → upsert order. -/
theorem phase_order_violations :
    (mongoTrace "R" []).map opKind
      = [.constraintDecl, .constraintDecl, .constraintDecl, .upsert, .upsert, .upsert, .cleanup]
    ∧ (analyzerTrace "R" "http://b" []).map opKind
      = [.cleanup, .constraintDecl, .constraintDecl, .constraintDecl, .upsert] := by
  refine ⟨by decide, by decide⟩

theorem mongoExtractOps_upsert (db : MongoDb) :
    ∀ op ∈ mongoExtractOps db, opKind op = .upsert := by
  intro op hop
  rcases List.mem_flatMap.mp hop with ⟨c, _, hin⟩
  simp only [List.mem_cons, List.mem_singleton, List.not_mem_nil, or_false] at hin
  rcases hin with rfl | rfl <;> rfl

theorem mongoDetectOps_upsert (db : MongoDb) :
    ∀ op ∈ mongoDetectOps db, opKind op = .upsert := by
  intro op hop
  rcases List.mem_flatMap.mp hop with ⟨c, _, hin⟩
  rcases List.mem_map.mp hin with ⟨fr, _, rfl⟩
  rfl

mutual

theorem visitStmt_ops_upsert (r b f : String) (ctx : Option String) (s : Stmt) :
    ∀ op ∈ (visitStmt r b f ctx s).1, opKind op = .upsert := by
  cases s with
  | classDef nm line body =>
    intro op hop
    simp only [visitStmt] at hop
    rcases List.mem_append.mp hop with h | h
    · simp only [List.mem_cons, List.not_mem_nil, or_false] at h
      rcases h with rfl | rfl <;> rfl
    · exact visitStmts_ops_upsert r b f (some (r ++ ":" ++ nm)) body op h
  | funcDef nm line body =>
    intro op hop
    cases ctx with
    | some classId =>
      simp only [visitStmt] at hop
      rcases List.mem_append.mp hop with h | h
      · simp only [List.mem_cons, List.not_mem_nil, or_false] at h
        rcases h with rfl | rfl <;> rfl
      · exact visitStmts_ops_upsert r b f (some classId) body op h
    | none =>
      simp only [visitStmt] at hop
      rcases List.mem_append.mp hop with h | h
      · simp only [List.mem_cons, List.not_mem_nil, or_false] at h
        rcases h with rfl | rfl <;> rfl
      · exact visitStmts_ops_upsert r b f none body op h
  | other children =>
    intro op hop
    simp only [visitStmt] at hop
    exact visitStmts_ops_upsert r b f ctx children op hop

theorem visitStmts_ops_upsert (r b f : String) (ctx : Option String) (l : List Stmt) :
    ∀ op ∈ (visitStmts r b f ctx l).1, opKind op = .upsert := by
  cases l with
  | nil => intro op hop; simp [visitStmts] at hop
  | cons s rest =>
    intro op hop
    simp only [visitStmts] at hop
    rcases List.mem_append.mp hop with h | h
    · exact visitStmt_ops_upsert r b f ctx s op h
    · exact visitStmts_ops_upsert r b f (visitStmt r b f ctx s).2 rest op h

end

theorem fileOps_upsert (r b : String) (fs : List PyFile) :
    ∀ op ∈ fs.flatMap (fileOps r b), opKind op = .upsert := by
  intro op hop
  rcases List.mem_flatMap.mp hop with ⟨fl, _, hin⟩
  exact visitStmts_ops_upsert r b fl.1 none fl.2 op hin

/-- C4 (amended): the orders the code actually guarantees.  MongoDB variant:
the three constraint declarations come first, then the Root, Database and
CONTAINS upserts, then the Collection cleanup, and everything after the
cleanup — all of the schema extraction and relationship phases — is an
upsert.  Code variant: the scoped cleanup comes first, then the three
constraint declarations, then the Root upsert, and everything after is an
upsert.  (Consequences: cleanup precedes every Collection upsert in the
MongoDB run, but the Root/Database/CONTAINS merges precede the cleanup; in
the code run the cleanup precedes the constraint declarations.) -/
theorem phase_order_amended (r b : String) (db : MongoDb) (files : List PyFile) :
    (mongoPre r).map opKind
      = [.constraintDecl, .constraintDecl, .constraintDecl, .upsert, .upsert, .upsert, .cleanup]
    ∧ mongoTrace r db = mongoPre r ++ (mongoExtractOps db ++ mongoDetectOps db)
    ∧ (mongoExtractOps db ++ mongoDetectOps db).all (fun op => opKind op == OpKind.upsert) = true
    ∧ ((analyzerTrace r b files).take 5).map opKind
      = [.cleanup, .constraintDecl, .constraintDecl, .constraintDecl, .upsert]
    ∧ (analyzerTrace r b files).drop 5 = files.flatMap (fileOps r b)
    ∧ (files.flatMap (fileOps r b)).all (fun op => opKind op == OpKind.upsert) = true := by
  refine ⟨rfl, rfl, ?_, rfl, rfl, ?_⟩
  · rw [List.all_eq_true]
    intro op hop
    rw [beq_iff_eq]
    rcases List.mem_append.mp hop with h | h
    · exact mongoExtractOps_upsert db op h
    · exact mongoDetectOps_upsert db op h
  · rw [List.all_eq_true]
    intro op hop
    rw [beq_iff_eq]
    exact fileOps_upsert r b files op hop

/-! ## Graph-store lemmas -/

theorem propsSetAll_nil (sp : String → Option String) : propsSetAll sp [] = sp := rfl

/-- Sequential `SET` clauses: the last write to a key wins; untouched keys read the
previous function. -/
theorem propsSetAll_eq (l : PropList) (sp : String → Option String) (q : String) :
    propsSetAll sp l q =
      match l.reverse.find? (fun kv => kv.1 = q) with
      | some kv => some kv.2
      | none => sp q := by
  induction l generalizing sp with
  | nil => rfl
  | cons kv rest ih =>
    show propsSetAll (fun q => if q = kv.1 then some kv.2 else sp q) rest q = _
    rw [ih]
    simp only [List.reverse_cons, List.find?_append]
    cases hfind : rest.reverse.find? (fun kv => kv.1 = q) with
    | some kv' => simp [Option.or]
    | none =>
      by_cases hq : kv.1 = q
      · rw [if_pos hq.symm, List.find?_cons_of_pos _ (by simpa using hq)]; rfl
      · rw [if_neg (fun h => hq h.symm), List.find?_cons_of_neg _ (by simpa using hq)]; rfl

/-- Re-applying the same `SET` clauses is a no-op. -/
theorem propsSetAll_idem (l : PropList) (sp : String → Option String) :
    propsSetAll (propsSetAll sp l) l = propsSetAll sp l := by
  funext q
  rw [propsSetAll_eq l (propsSetAll sp l) q]
  cases hF : l.reverse.find? (fun kv => kv.1 = q) with
  | some kv => rw [propsSetAll_eq l sp q, hF]
  | none => rfl

/-- Unmentioned keys: `SET` clauses do not touch keys they do not mention. -/
theorem propsSetAll_nokey (l : PropList) (sp : String → Option String) (k : String)
    (h : ∀ kv ∈ l, kv.1 ≠ k) : propsSetAll sp l k = sp k := by
  rw [propsSetAll_eq]
  cases hfind : l.reverse.find? (fun kv => kv.1 = k) with
  | none => rfl
  | some kv =>
    exfalso
    have hm : kv ∈ l.reverse := List.mem_of_find?_eq_some hfind
    have hk : kv.1 = k := by simpa using List.find?_some hfind
    exact h kv (List.mem_reverse.mp hm) hk

theorem nodes_applyMergeEdge (g : Graph) (t sl : String) (sp : PropList) (tl : String)
    (tp : PropList) (ep : PropList) :
    (applyMergeEdge g t sl sp tl tp ep).nodes = g.nodes := rfl

theorem mem_edgeInsert (es : List GEdge) (e b : GEdge) (h : e ∈ es) : e ∈ edgeInsert es b := by
  unfold edgeInsert
  split
  · exact h
  · exact List.mem_append_left _ h

theorem mem_foldl_edgeInsert (news es : List GEdge) (e : GEdge) (h : e ∈ es ∨ e ∈ news) :
    e ∈ news.foldl edgeInsert es := by
  induction news generalizing es with
  | nil => simpa using h.resolve_right (by simp)
  | cons b rest ih =>
    rw [List.foldl_cons]
    rcases h with h | h
    · exact ih _ (Or.inl (mem_edgeInsert es e b h))
    · rcases List.mem_cons.mp h with rfl | h
      · refine ih _ (Or.inl ?_)
        unfold edgeInsert
        split
        · assumption
        · exact List.mem_append_right _ (by simp)
      · exact ih _ (Or.inr h)

theorem foldl_edgeInsert_fix (news es : List GEdge) (h : ∀ e ∈ news, e ∈ es) :
    news.foldl edgeInsert es = es := by
  induction news with
  | nil => rfl
  | cons b rest ih =>
    rw [List.foldl_cons]
    have hb : edgeInsert es b = es := by
      unfold edgeInsert
      rw [if_pos (h b (by simp))]
    rw [hb]
    exact ih (fun e he => h e (by simp [he]))

theorem foldl_edgeInsert_append (news es : List GEdge) :
    ∃ added, news.foldl edgeInsert es = es ++ added ∧ ∀ e ∈ added, e ∈ news := by
  induction news generalizing es with
  | nil => exact ⟨[], by simp, by simp⟩
  | cons b rest ih =>
    rw [List.foldl_cons]
    unfold edgeInsert
    by_cases hb : b ∈ es
    · rw [if_pos hb]
      obtain ⟨added, h1, h2⟩ := ih es
      exact ⟨added, h1, fun e he => by simp [h2 e he]⟩
    · rw [if_neg hb]
      obtain ⟨added, h1, h2⟩ := ih (es ++ [b])
      refine ⟨b :: added, by simpa using h1, ?_⟩
      intro e he
      rcases List.mem_cons.mp he with rfl | he
      · simp
      · simp [h2 e he]

theorem filter_map_invariant (ns : List GNode) (f : GNode → GNode) (p : GNode → Bool)
    (h1 : ∀ n ∈ ns, p n = true → f n = n) (h2 : ∀ n ∈ ns, p (f n) = p n) :
    (ns.map f).filter p = ns.filter p := by
  induction ns with
  | nil => rfl
  | cons n rest ih =>
    rw [List.map_cons, List.filter_cons, List.filter_cons, h2 n (by simp)]
    have ihr := ih (fun m hm => h1 m (by simp [hm])) (fun m hm => h2 m (by simp [hm]))
    cases hp : p n with
    | false => simpa [hp] using ihr
    | true => simp only [hp, h1 n (by simp) hp, ihr]

theorem nodeMatches_label (l : String) (pat : PropList) (n : GNode)
    (h : nodeMatches l pat n = true) : n.key.1 = l := by
  unfold nodeMatches at h
  simp only [Bool.and_eq_true, decide_eq_true_eq] at h
  exact h.1

theorem nodeMatches_label_ne (l : String) (pat : PropList) (n : GNode)
    (h : n.key.1 ≠ l) : nodeMatches l pat n = false := by
  unfold nodeMatches
  simp [h]

theorem allCongr {α : Type} {xs : List α} {p q : α → Bool} (h : ∀ a ∈ xs, p a = q a) :
    xs.all p = xs.all q := by
  induction xs with
  | nil => rfl
  | cons a rest ih =>
    have ha : p a = q a := h a (List.mem_cons_self a rest)
    have hrest : rest.all p = rest.all q :=
      ih (fun b hb => h b (List.mem_cons_of_mem a hb))
    rw [List.all_cons, List.all_cons, ha, hrest]

theorem fullProp_updSet (n : GNode) (pm : PropList) (k : String)
    (h : ∀ kv ∈ pm, kv.1 ≠ k) :
    fullProp { n with setProps := propsSetAll n.setProps pm } k = fullProp n k := by
  unfold fullProp
  rw [show ({ n with setProps := propsSetAll n.setProps pm } : GNode).setProps
    = propsSetAll n.setProps pm from rfl]
  rw [propsSetAll_nokey pm n.setProps k h]

theorem nodeMatches_updSet (l : String) (pat pm : PropList) (n : GNode)
    (hd : ∀ kv ∈ pat, ∀ kv' ∈ pm, kv'.1 ≠ kv.1) :
    nodeMatches l pat { n with setProps := propsSetAll n.setProps pm } = nodeMatches l pat n := by
  unfold nodeMatches
  congr 1
  exact allCongr (fun kv hkv => by
    rw [fullProp_updSet n pm kv.1 (fun kv' hkv' => hd kv hkv kv' hkv')])

/-- A `(label, pattern)` target is *fixed* for `SET` clauses `pm`: some node
matches, and re-applying `pm` to any matching node changes nothing.  In such
a state the corresponding `MERGE ... ON MATCH SET pm` is a no-op. -/
def NodeFixed (l : String) (pat pm : PropList) (g : Graph) : Prop :=
  g.nodes.any (nodeMatches l pat) = true ∧
  ∀ n ∈ g.nodes, nodeMatches l pat n = true → propsSetAll n.setProps pm = n.setProps

theorem applyMergeNode_of_fixed (g : Graph) (l : String) (pat pc pm : PropList)
    (h : NodeFixed l pat pm g) : applyMergeNode g l pat pc pm = g := by
  obtain ⟨hany, hfix⟩ := h
  unfold applyMergeNode
  rw [if_pos hany]
  have hmap : g.nodes.map (fun n =>
      if nodeMatches l pat n then { n with setProps := propsSetAll n.setProps pm } else n)
      = g.nodes := by
    apply (List.map_congr_left ?_).trans (List.map_id _)
    intro n hn
    by_cases hm : nodeMatches l pat n = true
    · rw [if_pos hm, hfix n hn hm]; rfl
    · rw [if_neg hm]; rfl
  rw [hmap]

theorem edges_applyMergeNode (g : Graph) (l : String) (pat pc pm : PropList) :
    (applyMergeNode g l pat pc pm).edges = g.edges := by
  unfold applyMergeNode
  split <;> rfl

theorem applyMergeNode_establish (g : Graph) (l : String) (pat pc pm : PropList)
    (hmk : nodeMatches l pat (mkNode l pat pc) = true)
    (hd : ∀ kv ∈ pat, ∀ kv' ∈ pm, kv'.1 ≠ kv.1)
    (hcr : propsSetAll (mkNode l pat pc).setProps pm = (mkNode l pat pc).setProps) :
    NodeFixed l pat pm (applyMergeNode g l pat pc pm) := by
  unfold applyMergeNode
  by_cases hany : g.nodes.any (nodeMatches l pat) = true
  · rw [if_pos hany]
    obtain ⟨n, hn, hm⟩ := List.any_eq_true.mp hany
    constructor
    · refine List.any_eq_true.mpr ⟨_, List.mem_map_of_mem _ hn, ?_⟩
      rw [if_pos hm, nodeMatches_updSet l pat pm n hd]
      exact hm
    · intro m hmem hmatch
      rcases List.mem_map.mp hmem with ⟨n', hn', rfl⟩
      by_cases hc : nodeMatches l pat n' = true
      · rw [if_pos hc]
        exact propsSetAll_idem pm n'.setProps
      · rw [if_neg hc] at hmatch
        exact absurd hmatch hc
  · rw [if_neg hany]
    constructor
    · exact List.any_eq_true.mpr ⟨mkNode l pat pc, by simp, hmk⟩
    · intro m hmem hmatch
      rcases List.mem_append.mp hmem with h | h
      · exact absurd (List.any_eq_true.mpr ⟨m, h, hmatch⟩) hany
      · have hm : m = mkNode l pat pc := by simpa using h
        rw [hm]
        exact hcr

theorem NodeFixed_mergeNode_ne (g : Graph) (l : String) (pat pm : PropList)
    (lq : String) (patq pcq pmq : PropList) (hne : lq ≠ l)
    (h : NodeFixed l pat pm g) : NodeFixed l pat pm (applyMergeNode g lq patq pcq pmq) := by
  obtain ⟨hany, hfix⟩ := h
  unfold applyMergeNode
  by_cases ha : g.nodes.any (nodeMatches lq patq) = true
  · rw [if_pos ha]
    obtain ⟨n, hn, hm⟩ := List.any_eq_true.mp hany
    have hq : nodeMatches lq patq n = false :=
      nodeMatches_label_ne lq patq n (by rw [nodeMatches_label l pat n hm]; exact fun e => hne e.symm)
    constructor
    · refine List.any_eq_true.mpr ⟨_, List.mem_map_of_mem _ hn, ?_⟩
      rw [if_neg (by simp [hq])]
      exact hm
    · intro m hmem hmatch
      rcases List.mem_map.mp hmem with ⟨n', hn', rfl⟩
      by_cases hc : nodeMatches lq patq n' = true
      · rw [if_pos hc] at hmatch
        have hk : n'.key.1 = lq := nodeMatches_label lq patq n' hc
        have : nodeMatches l pat { n' with setProps := propsSetAll n'.setProps pmq } = false :=
          nodeMatches_label_ne l pat _ (by rw [show ({ n' with setProps := propsSetAll n'.setProps pmq } : GNode).key = n'.key from rfl, hk]; exact hne)
        rw [this] at hmatch
        exact absurd hmatch (by simp)
      · rw [if_neg hc] at hmatch ⊢
        exact hfix n' hn' hmatch
  · rw [if_neg ha]
    constructor
    · rw [List.any_append]
      simp only [hany, Bool.true_or]
    · intro m hmem hmatch
      rcases List.mem_append.mp hmem with h | h
      · exact hfix m h hmatch
      · have hm : m = mkNode lq patq pcq := by simpa using h
        rw [hm] at hmatch
        have : (mkNode lq patq pcq).key.1 = lq := rfl
        rw [nodeMatches_label_ne l pat _ (by rw [this]; exact hne)] at hmatch
        exact absurd hmatch (by simp)

theorem NodeFixed_mergeEdge (g : Graph) (l : String) (pat pm : PropList)
    (t sl : String) (sp : PropList) (tl : String) (tp ep : PropList)
    (h : NodeFixed l pat pm g) : NodeFixed l pat pm (applyMergeEdge g t sl sp tl tp ep) := h

theorem NodeFixed_delete (g : Graph) (l : String) (pat pm : PropList) (p : GNode → Bool)
    (hpl : ∀ n, nodeMatches l pat n = true → p n = false)
    (h : NodeFixed l pat pm g) : NodeFixed l pat pm (applyDeleteWhere g p) := by
  obtain ⟨hany, hfix⟩ := h
  obtain ⟨n, hn, hm⟩ := List.any_eq_true.mp hany
  constructor
  · exact List.any_eq_true.mpr ⟨n, List.mem_filter.mpr ⟨hn, by simp [hpl n hm]⟩, hm⟩
  · intro m hmem hmatch
    exact hfix m (List.mem_filter.mp hmem).1 hmatch

/-- A `MERGE`d edge target is *saturated*: for every pair of matching
endpoints the edge is already present, so re-merging is a no-op. -/
def EdgeFixed (t sl : String) (sp : PropList) (tl : String) (tp ep : PropList)
    (g : Graph) : Prop :=
  ∀ s ∈ g.nodes, ∀ d ∈ g.nodes, nodeMatches sl sp s = true → nodeMatches tl tp d = true →
    ({ etype := t, src := s.key, dst := d.key, props := ep } : GEdge) ∈ g.edges

theorem applyMergeEdge_of_fixed (g : Graph) (t sl : String) (sp : PropList) (tl : String)
    (tp ep : PropList) (h : EdgeFixed t sl sp tl tp ep g) :
    applyMergeEdge g t sl sp tl tp ep = g := by
  have hfix : ((g.nodes.filter (nodeMatches sl sp)).flatMap (fun s =>
      (g.nodes.filter (nodeMatches tl tp)).map (fun d =>
        ({ etype := t, src := s.key, dst := d.key, props := ep } : GEdge)))).foldl
        edgeInsert g.edges = g.edges := by
    apply foldl_edgeInsert_fix
    intro e he
    rcases List.mem_flatMap.mp he with ⟨s, hs, he2⟩
    rcases List.mem_map.mp he2 with ⟨d, hd, rfl⟩
    obtain ⟨hs1, hs2⟩ := List.mem_filter.mp hs
    obtain ⟨hd1, hd2⟩ := List.mem_filter.mp hd
    exact h s hs1 d hd1 hs2 hd2
  show ({ nodes := g.nodes,
          edges := ((g.nodes.filter (nodeMatches sl sp)).flatMap (fun s =>
            (g.nodes.filter (nodeMatches tl tp)).map (fun d =>
              ({ etype := t, src := s.key, dst := d.key, props := ep } : GEdge)))).foldl
            edgeInsert g.edges } : Graph) = g
  rw [hfix]

theorem applyMergeEdge_establish (g : Graph) (t sl : String) (sp : PropList) (tl : String)
    (tp ep : PropList) :
    EdgeFixed t sl sp tl tp ep (applyMergeEdge g t sl sp tl tp ep) := by
  intro s hs d hd hms hmd
  rw [nodes_applyMergeEdge] at hs hd
  apply mem_foldl_edgeInsert
  right
  refine List.mem_flatMap.mpr ⟨s, List.mem_filter.mpr ⟨hs, hms⟩, ?_⟩
  exact List.mem_map.mpr ⟨d, List.mem_filter.mpr ⟨hd, hmd⟩, rfl⟩

theorem EdgeFixed_mergeNode_ne (g : Graph) (t sl : String) (sp : PropList) (tl : String)
    (tp ep : PropList) (lq : String) (patq pcq pmq : PropList)
    (hs : lq ≠ sl) (ht : lq ≠ tl)
    (h : EdgeFixed t sl sp tl tp ep g) :
    EdgeFixed t sl sp tl tp ep (applyMergeNode g lq patq pcq pmq) := by
  have hmem : ∀ (l0 : String) (pat0 : PropList) (m : GNode), lq ≠ l0 →
      m ∈ (applyMergeNode g lq patq pcq pmq).nodes → nodeMatches l0 pat0 m = true →
      m ∈ g.nodes := by
    intro l0 pat0 m hne hmem hmatch
    unfold applyMergeNode at hmem
    by_cases ha : g.nodes.any (nodeMatches lq patq) = true
    · rw [if_pos ha] at hmem
      rcases List.mem_map.mp hmem with ⟨n, hn, rfl⟩
      by_cases hc : nodeMatches lq patq n = true
      · rw [if_pos hc] at hmatch
        have hk : n.key.1 = lq := nodeMatches_label lq patq n hc
        rw [nodeMatches_label_ne l0 pat0 _ (by
          rw [show ({ n with setProps := propsSetAll n.setProps pmq } : GNode).key = n.key from rfl, hk]
          exact hne)] at hmatch
        exact absurd hmatch (by simp)
      · rwa [if_neg hc]
    · rw [if_neg ha] at hmem
      rcases List.mem_append.mp hmem with hmem | hmem
      · exact hmem
      · have : m = mkNode lq patq pcq := by simpa using hmem
        rw [this] at hmatch
        rw [nodeMatches_label_ne l0 pat0 _ hne] at hmatch
        exact absurd hmatch (by simp)
  intro s hsm d hdm hms hmd
  rw [edges_applyMergeNode]
  exact h s (hmem sl sp s hs hsm hms) d (hmem tl tp d ht hdm hmd) hms hmd

theorem EdgeFixed_mergeEdge (g : Graph) (t sl : String) (sp : PropList) (tl : String)
    (tp ep : PropList) (t2 sl2 : String) (sp2 : PropList) (tl2 : String) (tp2 ep2 : PropList)
    (h : EdgeFixed t sl sp tl tp ep g) :
    EdgeFixed t sl sp tl tp ep (applyMergeEdge g t2 sl2 sp2 tl2 tp2 ep2) := by
  intro s hs d hd hms hmd
  rw [nodes_applyMergeEdge] at hs hd
  exact mem_foldl_edgeInsert _ _ _ (Or.inl (h s hs d hd hms hmd))

theorem EdgeFixed_deleteLabel (g : Graph) (t sl : String) (sp : PropList) (tl : String)
    (tp ep : PropList) (lD : String) (hs : sl ≠ lD) (ht : tl ≠ lD)
    (h : EdgeFixed t sl sp tl tp ep g) :
    EdgeFixed t sl sp tl tp ep (applyDeleteWhere g (fun n => n.key.1 = lD)) := by
  intro s hsm d hdm hms hmd
  obtain ⟨hs1, _⟩ := List.mem_filter.mp hsm
  obtain ⟨hd1, _⟩ := List.mem_filter.mp hdm
  have hremoved : ∀ k ∈ ((g.nodes.filter (fun n => decide (n.key.1 = lD))).map (·.key)),
      k.1 = lD := by
    intro k hk
    rcases List.mem_map.mp hk with ⟨n, hn, rfl⟩
    exact of_decide_eq_true (List.mem_filter.mp hn).2
  apply List.mem_filter.mpr
  refine ⟨h s hs1 d hd1 hms hmd, ?_⟩
  apply decide_eq_true
  constructor
  · intro habs
    exact hs ((nodeMatches_label sl sp s hms) ▸ hremoved _ habs)
  · intro habs
    exact ht ((nodeMatches_label tl tp d hmd) ▸ hremoved _ habs)

theorem nodes_keys_applyMergeNode (g : Graph) (l : String) (pat pc pm : PropList) (k : NodeKey)
    (h : ∃ n ∈ g.nodes, n.key = k) :
    ∃ n ∈ (applyMergeNode g l pat pc pm).nodes, n.key = k := by
  obtain ⟨n, hn, hk⟩ := h
  unfold applyMergeNode
  by_cases ha : g.nodes.any (nodeMatches l pat) = true
  · rw [if_pos ha]
    refine ⟨_, List.mem_map_of_mem _ hn, ?_⟩
    split <;> exact hk
  · rw [if_neg ha]
    exact ⟨n, List.mem_append_left _ hn, hk⟩

theorem Wf_mergeNode (g : Graph) (l : String) (pat pc pm : PropList) (h : Wf g) :
    Wf (applyMergeNode g l pat pc pm) := by
  intro e he
  rw [edges_applyMergeNode] at he
  obtain ⟨h1, h2⟩ := h e he
  exact ⟨nodes_keys_applyMergeNode g l pat pc pm e.src h1,
    nodes_keys_applyMergeNode g l pat pc pm e.dst h2⟩

theorem mem_foldl_edgeInsert_inv (news es : List GEdge) (e : GEdge)
    (h : e ∈ news.foldl edgeInsert es) : e ∈ es ∨ e ∈ news := by
  obtain ⟨added, heq, hsub⟩ := foldl_edgeInsert_append news es
  rw [heq] at h
  rcases List.mem_append.mp h with h | h
  · exact Or.inl h
  · exact Or.inr (hsub e h)

theorem Wf_mergeEdge (g : Graph) (t sl : String) (sp : PropList) (tl : String)
    (tp ep : PropList) (h : Wf g) : Wf (applyMergeEdge g t sl sp tl tp ep) := by
  intro e he
  have hnodes : (applyMergeEdge g t sl sp tl tp ep).nodes = g.nodes := rfl
  rcases mem_foldl_edgeInsert_inv _ _ _ he with hmem | hmem
  · obtain ⟨h1, h2⟩ := h e hmem
    rw [EdgeEndpointsOk, hnodes]
    exact ⟨h1, h2⟩
  · rcases List.mem_flatMap.mp hmem with ⟨s, hs, he2⟩
    rcases List.mem_map.mp he2 with ⟨d, hd, rfl⟩
    rw [EdgeEndpointsOk, hnodes]
    exact ⟨⟨s, (List.mem_filter.mp hs).1, rfl⟩, ⟨d, (List.mem_filter.mp hd).1, rfl⟩⟩

theorem Wf_delete (g : Graph) (p : GNode → Bool) (h : Wf g) : Wf (applyDeleteWhere g p) := by
  intro e he
  obtain ⟨hmem, hcond⟩ := List.mem_filter.mp he
  obtain ⟨hsrc, hdst⟩ := of_decide_eq_true hcond
  obtain ⟨⟨ns, hns, hks⟩, ⟨nd, hnd, hkd⟩⟩ := h e hmem
  have hkeepn : ∀ (n : GNode), n ∈ g.nodes → n.key = e.src ∨ n.key = e.dst →
      n ∈ (applyDeleteWhere g p).nodes := by
    intro n hn hk
    apply List.mem_filter.mpr
    refine ⟨hn, ?_⟩
    cases hp : p n with
    | false => simp
    | true =>
      exfalso
      have : n.key ∈ (g.nodes.filter p).map (·.key) :=
        List.mem_map.mpr ⟨n, List.mem_filter.mpr ⟨hn, hp⟩, rfl⟩
      rcases hk with hk | hk
      · exact hsrc (hk ▸ this)
      · exact hdst (hk ▸ this)
  exact ⟨⟨ns, hkeepn ns hns (Or.inl hks), hks⟩, ⟨nd, hkeepn nd hnd (Or.inr hkd), hkd⟩⟩

theorem deleteWhere_nodes (g : Graph) (p : GNode → Bool) :
    ∀ n ∈ (applyDeleteWhere g p).nodes, p n = false := by
  intro n hn
  have := (List.mem_filter.mp hn).2
  simpa using this

theorem deleteLabel_edges_label (g : Graph) (l : String) (hwf : Wf g) :
    ∀ e ∈ (applyDeleteWhere g (fun n => n.key.1 = l)).edges,
      e.src.1 ≠ l ∧ e.dst.1 ≠ l := by
  intro e he
  obtain ⟨hmem, hcond⟩ := List.mem_filter.mp he
  obtain ⟨hsrc, hdst⟩ := of_decide_eq_true hcond
  obtain ⟨⟨ns, hns, hks⟩, ⟨nd, hnd, hkd⟩⟩ := hwf e hmem
  constructor
  · intro habs
    apply hsrc
    refine List.mem_map.mpr ⟨ns, List.mem_filter.mpr ⟨hns, ?_⟩, hks⟩
    exact decide_eq_true (hks ▸ habs : ns.key.1 = l)
  · intro habs
    apply hdst
    refine List.mem_map.mpr ⟨nd, List.mem_filter.mpr ⟨hnd, ?_⟩, hkd⟩
    exact decide_eq_true (hkd ▸ habs : nd.key.1 = l)

/-- Operations that cannot disturb a fixed `(l, pat)` node target. -/
def OpKeepsNode (l : String) : Op → Prop
  | .constraint _ => True
  | .mergeNode lq _ _ _ => lq ≠ l
  | .mergeEdge _ _ _ _ _ _ => True
  | .deleteLabel lD => l ≠ lD
  | .deleteByProp _ _ => False

theorem NodeFixed_applyOp (s : Graph) (l : String) (pat pm : PropList) (op : Op)
    (hop : OpKeepsNode l op) (h : NodeFixed l pat pm s) :
    NodeFixed l pat pm (applyOp s op) := by
  cases op with
  | constraint _ => exact h
  | mergeNode lq patq pcq pmq => exact NodeFixed_mergeNode_ne s l pat pm lq patq pcq pmq hop h
  | mergeEdge t sl sp tl tp ep => exact NodeFixed_mergeEdge s l pat pm t sl sp tl tp ep h
  | deleteLabel lD =>
    refine NodeFixed_delete s l pat pm _ ?_ h
    intro n hm
    have hk : n.key.1 = l := nodeMatches_label l pat n hm
    simp only [hk]
    exact decide_eq_false hop
  | deleteByProp k v => exact absurd hop (by simp [OpKeepsNode])

theorem NodeFixed_applyTrace (s : Graph) (l : String) (pat pm : PropList) (ops : List Op)
    (hops : ∀ op ∈ ops, OpKeepsNode l op) (h : NodeFixed l pat pm s) :
    NodeFixed l pat pm (applyTrace ops s) := by
  induction ops generalizing s with
  | nil => exact h
  | cons op rest ih =>
    exact ih (applyOp s op) (fun o ho => hops o (by simp [ho]))
      (NodeFixed_applyOp s l pat pm op (hops op (by simp)) h)

/-- Operations that cannot disturb a saturated edge target. -/
def OpKeepsEdge (sl tl : String) : Op → Prop
  | .constraint _ => True
  | .mergeNode lq _ _ _ => lq ≠ sl ∧ lq ≠ tl
  | .mergeEdge _ _ _ _ _ _ => True
  | .deleteLabel lD => sl ≠ lD ∧ tl ≠ lD
  | .deleteByProp _ _ => False

theorem EdgeFixed_applyOp (s : Graph) (t sl : String) (sp : PropList) (tl : String)
    (tp ep : PropList) (op : Op) (hop : OpKeepsEdge sl tl op)
    (h : EdgeFixed t sl sp tl tp ep s) :
    EdgeFixed t sl sp tl tp ep (applyOp s op) := by
  cases op with
  | constraint _ => exact h
  | mergeNode lq patq pcq pmq =>
    exact EdgeFixed_mergeNode_ne s t sl sp tl tp ep lq patq pcq pmq hop.1 hop.2 h
  | mergeEdge t2 sl2 sp2 tl2 tp2 ep2 =>
    exact EdgeFixed_mergeEdge s t sl sp tl tp ep t2 sl2 sp2 tl2 tp2 ep2 h
  | deleteLabel lD => exact EdgeFixed_deleteLabel s t sl sp tl tp ep lD hop.1 hop.2 h
  | deleteByProp k v => exact absurd hop (by simp [OpKeepsEdge])

theorem EdgeFixed_applyTrace (s : Graph) (t sl : String) (sp : PropList) (tl : String)
    (tp ep : PropList) (ops : List Op) (hops : ∀ op ∈ ops, OpKeepsEdge sl tl op)
    (h : EdgeFixed t sl sp tl tp ep s) :
    EdgeFixed t sl sp tl tp ep (applyTrace ops s) := by
  induction ops generalizing s with
  | nil => exact h
  | cons op rest ih =>
    exact ih (applyOp s op) (fun o ho => hops o (by simp [ho]))
      (EdgeFixed_applyOp s t sl sp tl tp ep op (hops op (by simp)) h)

theorem applyTrace_append (t1 t2 : List Op) (g : Graph) :
    applyTrace (t1 ++ t2) g = applyTrace t2 (applyTrace t1 g) :=
  List.foldl_append applyOp g t1 t2

/-- A `MERGE` on an `id`-keyed pattern creates a node matching the pattern
whenever the `ON CREATE SET` props avoid the key `id`. -/
theorem nodeMatches_mkNode_id (l v : String) (pc : PropList)
    (hpc : ∀ kv ∈ pc, kv.1 ≠ "id") :
    nodeMatches l [("id", v)] (mkNode l [("id", v)] pc) = true := by
  unfold nodeMatches
  rw [Bool.and_eq_true]
  constructor
  · exact decide_eq_true rfl
  · have hfp : fullProp (mkNode l [("id", v)] pc) "id" = some v := by
      unfold fullProp mkNode
      rw [show ({ key := (l, [("id", v)]), setProps := propsSetAll (fun _ => none) pc } : GNode).setProps
        = propsSetAll (fun _ => none) pc from rfl]
      rw [propsSetAll_nokey pc _ "id" hpc]
      rfl
    simp [hfp]

/-- The shape of every operation issued after the Collection cleanup in the
MongoDB run: a Collection-node merge or an edge merge pointing at a
Collection node. -/
def CollPhaseOp : Op → Prop
  | .mergeNode l _ _ _ => l = "Collection"
  | .mergeEdge _ _ _ tl _ _ => tl = "Collection"
  | _ => False

theorem mongoExtractOps_collPhase (db : MongoDb) :
    ∀ op ∈ mongoExtractOps db, CollPhaseOp op := by
  intro op hop
  rcases List.mem_flatMap.mp hop with ⟨c, _, hin⟩
  simp only [List.mem_cons, List.not_mem_nil, or_false] at hin
  rcases hin with rfl | rfl <;> rfl

theorem mongoDetectOps_collPhase (db : MongoDb) :
    ∀ op ∈ mongoDetectOps db, CollPhaseOp op := by
  intro op hop
  rcases List.mem_flatMap.mp hop with ⟨c, _, hin⟩
  rcases List.mem_map.mp hin with ⟨fr, _, rfl⟩
  rfl

/-- How the post-cleanup phase grows the store: only Collection nodes are
added (or updated), and only edges whose target is one of those Collection
nodes. -/
def CollExtends (gBase s : Graph) : Prop :=
  ∃ extN extE,
    s.nodes = gBase.nodes ++ extN ∧ (∀ n ∈ extN, n.key.1 = "Collection") ∧
    s.edges = gBase.edges ++ extE ∧ (∀ e ∈ extE, e.dst ∈ extN.map (·.key))

theorem CollExtends_refl (gBase : Graph) : CollExtends gBase gBase :=
  ⟨[], [], by simp, by simp, by simp, by simp⟩

theorem CollExtends_applyOp (gBase s : Graph) (op : Op)
    (hbase : ∀ n ∈ gBase.nodes, n.key.1 ≠ "Collection")
    (hop : CollPhaseOp op) (h : CollExtends gBase s) :
    CollExtends gBase (applyOp s op) := by
  obtain ⟨extN, extE, hN, hNl, hE, hEd⟩ := h
  cases op with
  | constraint _ => exact ⟨extN, extE, hN, hNl, hE, hEd⟩
  | deleteLabel _ => exact absurd hop (by simp [CollPhaseOp])
  | deleteByProp _ _ => exact absurd hop (by simp [CollPhaseOp])
  | mergeNode l pat pc pm =>
    have hl : l = "Collection" := hop
    subst hl
    show CollExtends gBase (applyMergeNode s "Collection" pat pc pm)
    unfold applyMergeNode
    by_cases ha : s.nodes.any (nodeMatches "Collection" pat) = true
    · rw [if_pos ha]
      refine ⟨extN.map (fun n =>
        if nodeMatches "Collection" pat n then { n with setProps := propsSetAll n.setProps pm }
        else n), extE, ?_, ?_, hE, ?_⟩
      · have hmap : gBase.nodes.map (fun n =>
            if nodeMatches "Collection" pat n then { n with setProps := propsSetAll n.setProps pm }
            else n) = gBase.nodes := by
          apply (List.map_congr_left ?_).trans (List.map_id _)
          intro n hn
          rw [if_neg (by
            rw [nodeMatches_label_ne "Collection" pat n (hbase n hn)]
            simp)]
          rfl
        show s.nodes.map (fun n =>
            if nodeMatches "Collection" pat n then { n with setProps := propsSetAll n.setProps pm }
            else n) = _
        rw [hN, List.map_append, hmap]
      · intro n hn
        rcases List.mem_map.mp hn with ⟨m, hm, rfl⟩
        have := hNl m hm
        split <;> exact this
      · intro e he
        have hmem := hEd e he
        rcases List.mem_map.mp hmem with ⟨m, hm, hk⟩
        refine List.mem_map.mpr ⟨_, List.mem_map_of_mem _ hm, ?_⟩
        rw [← hk]
        split <;> rfl
    · rw [if_neg ha]
      refine ⟨extN ++ [mkNode "Collection" pat pc], extE, ?_, ?_, hE, ?_⟩
      · rw [hN, List.append_assoc]
      · intro n hn
        rcases List.mem_append.mp hn with hn | hn
        · exact hNl n hn
        · rw [show n = mkNode "Collection" pat pc by simpa using hn]
          rfl
      · intro e he
        rw [List.map_append]
        exact List.mem_append_left _ (hEd e he)
  | mergeEdge t sl sp tl tp ep =>
    have hl : tl = "Collection" := hop
    subst hl
    show CollExtends gBase (applyMergeEdge s t sl sp "Collection" tp ep)
    obtain ⟨added, hadd, hsub⟩ := foldl_edgeInsert_append
      ((s.nodes.filter (nodeMatches sl sp)).flatMap (fun s0 =>
        (s.nodes.filter (nodeMatches "Collection" tp)).map (fun d =>
          ({ etype := t, src := s0.key, dst := d.key, props := ep } : GEdge)))) s.edges
    refine ⟨extN, extE ++ added, hN, hNl, ?_, ?_⟩
    · show ((s.nodes.filter (nodeMatches sl sp)).flatMap (fun s0 =>
          (s.nodes.filter (nodeMatches "Collection" tp)).map (fun d =>
            ({ etype := t, src := s0.key, dst := d.key, props := ep } : GEdge)))).foldl
          edgeInsert s.edges = gBase.edges ++ (extE ++ added)
      rw [hadd, hE, List.append_assoc]
    · intro e he
      rcases List.mem_append.mp he with he | he
      · exact hEd e he
      · have hmem := hsub e he
        rcases List.mem_flatMap.mp hmem with ⟨s0, _, he2⟩
        rcases List.mem_map.mp he2 with ⟨d, hd, rfl⟩
        obtain ⟨hd1, hd2⟩ := List.mem_filter.mp hd
        have hdc : d.key.1 = "Collection" := nodeMatches_label "Collection" tp d hd2
        rw [hN] at hd1
        rcases List.mem_append.mp hd1 with hd1 | hd1
        · exact absurd hdc (hbase d hd1)
        · exact List.mem_map.mpr ⟨d, hd1, rfl⟩

theorem CollExtends_applyTrace (gBase s : Graph) (ops : List Op)
    (hbase : ∀ n ∈ gBase.nodes, n.key.1 ≠ "Collection")
    (hops : ∀ op ∈ ops, CollPhaseOp op) (h : CollExtends gBase s) :
    CollExtends gBase (applyTrace ops s) := by
  induction ops generalizing s with
  | nil => exact h
  | cons op rest ih =>
    exact ih (applyOp s op) (fun o ho => hops o (by simp [ho]))
      (CollExtends_applyOp gBase s op hbase (hops op (by simp)) h)

theorem applyDeleteWhere_eq (g : Graph) (p : GNode → Bool) :
    applyDeleteWhere g p =
      { nodes := g.nodes.filter (fun n => !(p n)),
        edges := g.edges.filter (fun e =>
          decide (e.src ∉ (g.nodes.filter p).map (·.key)
            ∧ e.dst ∉ (g.nodes.filter p).map (·.key))) } := rfl

/-- Cleaning up the Collections of a post-cleanup extension recovers the
post-cleanup base exactly. -/
theorem delete_CollExtends (gBase s : Graph)
    (hbase : ∀ n ∈ gBase.nodes, n.key.1 ≠ "Collection")
    (hbe : ∀ e ∈ gBase.edges, e.src.1 ≠ "Collection" ∧ e.dst.1 ≠ "Collection")
    (h : CollExtends gBase s) :
    applyDeleteWhere s (fun n => n.key.1 = "Collection") = gBase := by
  obtain ⟨extN, extE, hN, hNl, hE, hEd⟩ := h
  have hremoved : (s.nodes.filter (fun n => decide (n.key.1 = "Collection"))).map (·.key)
      = extN.map (·.key) := by
    rw [hN, List.filter_append]
    have h1 : gBase.nodes.filter (fun n => decide (n.key.1 = "Collection")) = [] := by
      rw [List.filter_eq_nil_iff]
      intro n hn
      simp [hbase n hn]
    have h2 : extN.filter (fun n => decide (n.key.1 = "Collection")) = extN := by
      rw [List.filter_eq_self]
      intro n hn
      simp [hNl n hn]
    rw [h1, h2, List.nil_append]
  have hkeys : ∀ k ∈ extN.map (·.key), k.1 = "Collection" := by
    intro k hk
    rcases List.mem_map.mp hk with ⟨n, hn, rfl⟩
    exact hNl n hn
  have hnodes : s.nodes.filter (fun n => !(decide (n.key.1 = "Collection"))) = gBase.nodes := by
    rw [hN, List.filter_append]
    have h1 : gBase.nodes.filter (fun n => !(decide (n.key.1 = "Collection"))) = gBase.nodes := by
      rw [List.filter_eq_self]
      intro n hn
      simp [hbase n hn]
    have h2 : extN.filter (fun n => !(decide (n.key.1 = "Collection"))) = [] := by
      rw [List.filter_eq_nil_iff]
      intro n hn
      simp [hNl n hn]
    rw [h1, h2, List.append_nil]
  have hedges : s.edges.filter (fun e =>
      decide (e.src ∉ extN.map (·.key) ∧ e.dst ∉ extN.map (·.key))) = gBase.edges := by
    rw [hE, List.filter_append]
    have h1 : gBase.edges.filter (fun e =>
        decide (e.src ∉ extN.map (·.key) ∧ e.dst ∉ extN.map (·.key))) = gBase.edges := by
      rw [List.filter_eq_self]
      intro e he
      apply decide_eq_true
      obtain ⟨hs, hd⟩ := hbe e he
      exact ⟨fun habs => hs (hkeys _ habs), fun habs => hd (hkeys _ habs)⟩
    have h2 : extE.filter (fun e =>
        decide (e.src ∉ extN.map (·.key) ∧ e.dst ∉ extN.map (·.key))) = [] := by
      rw [List.filter_eq_nil_iff]
      intro e he
      simp only [decide_eq_true_eq, not_and, not_not]
      intro _
      exact hEd e he
    rw [h1, h2, List.append_nil]
  rw [applyDeleteWhere_eq, hremoved, hnodes, hedges]

/-- The part of the MongoDB run before the Collection cleanup. -/
def mongoSetup (r : String) : List Op :=
  [ .constraint "Root", .constraint "Database", .constraint "Collection",
    .mergeNode "Root" [("id", "root:" ++ r)]
      (mongoRootProps r) (mongoRootProps r),
    .mergeNode "Database" [("id", "mongo:FanApp")]
      (mongoDbProps r) (mongoDbProps r),
    .mergeEdge "CONTAINS" "Root" [("id", "root:" ++ r)]
      "Database" [("id", "mongo:FanApp")] [] ]

theorem mongoPre_eq (r : String) :
    mongoPre r = mongoSetup r ++ [.deleteLabel "Collection"] := rfl

theorem mongoRootProps_keys (r : String) : ∀ kv ∈ mongoRootProps r, kv.1 ≠ "id" := by
  intro kv hkv
  simp only [mongoRootProps, List.mem_cons, List.not_mem_nil, or_false] at hkv
  rcases hkv with rfl | rfl | rfl
  · show "name" ≠ "id"
    decide
  · show "project" ≠ "id"
    decide
  · show "color" ≠ "id"
    decide

theorem mongoDbProps_keys (r : String) : ∀ kv ∈ mongoDbProps r, kv.1 ≠ "id" := by
  intro kv hkv
  simp only [mongoDbProps, List.mem_cons, List.not_mem_nil, or_false] at hkv
  rcases hkv with rfl | rfl | rfl
  · show "name" ≠ "id"
    decide
  · show "project" ≠ "id"
    decide
  · show "color" ≠ "id"
    decide

theorem mongo_post_keepsNode (db : MongoDb) (l0 : String) (hne : l0 ≠ "Collection") :
    ∀ op ∈ mongoExtractOps db ++ mongoDetectOps db, OpKeepsNode l0 op := by
  intro op hop
  have hcp : CollPhaseOp op := by
    rcases List.mem_append.mp hop with h | h
    · exact mongoExtractOps_collPhase db op h
    · exact mongoDetectOps_collPhase db op h
  cases op with
  | constraint _ => trivial
  | mergeNode l pat pc pm =>
    have hc : l = "Collection" := hcp
    rw [show OpKeepsNode l0 (Op.mergeNode l pat pc pm) = (l ≠ l0) from rfl, hc]
    exact fun he => hne he.symm
  | mergeEdge _ _ _ _ _ _ => trivial
  | deleteLabel _ => exact hcp.elim
  | deleteByProp _ _ => exact hcp.elim

theorem mongo_post_keepsEdge (db : MongoDb) (sl tl : String)
    (hs : sl ≠ "Collection") (ht : tl ≠ "Collection") :
    ∀ op ∈ mongoExtractOps db ++ mongoDetectOps db, OpKeepsEdge sl tl op := by
  intro op hop
  have hcp : CollPhaseOp op := by
    rcases List.mem_append.mp hop with h | h
    · exact mongoExtractOps_collPhase db op h
    · exact mongoDetectOps_collPhase db op h
  cases op with
  | constraint _ => trivial
  | mergeNode l pat pc pm =>
    have hc : l = "Collection" := hcp
    rw [show OpKeepsEdge sl tl (Op.mergeNode l pat pc pm) = (l ≠ sl ∧ l ≠ tl) from rfl, hc]
    exact ⟨fun he => hs he.symm, fun he => ht he.symm⟩
  | mergeEdge _ _ _ _ _ _ => trivial
  | deleteLabel _ => exact hcp.elim
  | deleteByProp _ _ => exact hcp.elim

/-- Idempotence of the MongoDB extractor's run: starting from any
well-formed store, a second identical run changes nothing. -/
theorem mongo_idem (r : String) (db : MongoDb) (g : Graph) (hwf : Wf g) :
    mongoRun r db (mongoRun r db g) = mongoRun r db g := by
  have hdel : ∀ x : Graph, applyOp x (Op.deleteLabel "Collection")
      = applyDeleteWhere x (fun n => n.key.1 = "Collection") := fun _ => rfl
  have hsplit : ∀ h : Graph, mongoRun r db h
      = applyTrace (mongoExtractOps db ++ mongoDetectOps db)
          (applyOp (applyTrace (mongoSetup r) h) (Op.deleteLabel "Collection")) := by
    intro h
    show applyTrace ((mongoSetup r ++ [Op.deleteLabel "Collection"])
      ++ (mongoExtractOps db ++ mongoDetectOps db)) h = _
    rw [applyTrace_append (mongoSetup r ++ [Op.deleteLabel "Collection"])
      (mongoExtractOps db ++ mongoDetectOps db) h]
    rw [applyTrace_append (mongoSetup r) [Op.deleteLabel "Collection"] h]
    rfl
  have hg3eq : applyTrace (mongoSetup r) g
      = applyMergeEdge
          (applyMergeNode
            (applyMergeNode g "Root" [("id", "root:" ++ r)] (mongoRootProps r) (mongoRootProps r))
            "Database" [("id", "mongo:FanApp")] (mongoDbProps r) (mongoDbProps r))
          "CONTAINS" "Root" [("id", "root:" ++ r)] "Database" [("id", "mongo:FanApp")] [] := rfl
  have hwf3 : Wf (applyTrace (mongoSetup r) g) := by
    rw [hg3eq]
    exact Wf_mergeEdge _ _ _ _ _ _ _ (Wf_mergeNode _ _ _ _ _ (Wf_mergeNode _ _ _ _ _ hwf))
  have hg1n : ∀ n ∈ (applyOp (applyTrace (mongoSetup r) g) (Op.deleteLabel "Collection")).nodes,
      n.key.1 ≠ "Collection" := by
    intro n hn
    rw [hdel] at hn
    have := deleteWhere_nodes (applyTrace (mongoSetup r) g)
      (fun n => n.key.1 = "Collection") n hn
    simpa using this
  have hg1e : ∀ e ∈ (applyOp (applyTrace (mongoSetup r) g) (Op.deleteLabel "Collection")).edges,
      e.src.1 ≠ "Collection" ∧ e.dst.1 ≠ "Collection" := by
    intro e he
    rw [hdel] at he
    exact deleteLabel_edges_label _ "Collection" hwf3 e he
  have hNF0root : NodeFixed "Root" [("id", "root:" ++ r)] (mongoRootProps r)
      (applyMergeNode g "Root" [("id", "root:" ++ r)] (mongoRootProps r) (mongoRootProps r)) :=
    applyMergeNode_establish g "Root" [("id", "root:" ++ r)] (mongoRootProps r) (mongoRootProps r)
      (nodeMatches_mkNode_id "Root" ("root:" ++ r) (mongoRootProps r) (mongoRootProps_keys r))
      (by
        intro kv hkv kv2 hkv2
        simp only [List.mem_cons, List.not_mem_nil, or_false] at hkv
        rw [hkv]
        exact mongoRootProps_keys r kv2 hkv2)
      (propsSetAll_idem (mongoRootProps r) (fun _ => none))
  have hNFroot : NodeFixed "Root" [("id", "root:" ++ r)] (mongoRootProps r) (mongoRun r db g) := by
    rw [hsplit g]
    apply NodeFixed_applyTrace _ _ _ _ _ (mongo_post_keepsNode db "Root" (by decide))
    apply NodeFixed_applyOp _ _ _ _ (Op.deleteLabel "Collection")
      (show ("Root" : String) ≠ "Collection" by decide)
    rw [hg3eq]
    exact NodeFixed_mergeEdge _ _ _ _ _ _ _ _ _ _
      (NodeFixed_mergeNode_ne _ _ _ _ _ _ _ _
        (show ("Database" : String) ≠ "Root" by decide) hNF0root)
  have hNF0db : NodeFixed "Database" [("id", "mongo:FanApp")] (mongoDbProps r)
      (applyMergeNode
        (applyMergeNode g "Root" [("id", "root:" ++ r)] (mongoRootProps r) (mongoRootProps r))
        "Database" [("id", "mongo:FanApp")] (mongoDbProps r) (mongoDbProps r)) :=
    applyMergeNode_establish _ "Database" [("id", "mongo:FanApp")] (mongoDbProps r)
      (mongoDbProps r)
      (nodeMatches_mkNode_id "Database" "mongo:FanApp" (mongoDbProps r) (mongoDbProps_keys r))
      (by
        intro kv hkv kv2 hkv2
        simp only [List.mem_cons, List.not_mem_nil, or_false] at hkv
        rw [hkv]
        exact mongoDbProps_keys r kv2 hkv2)
      (propsSetAll_idem (mongoDbProps r) (fun _ => none))
  have hNFdb : NodeFixed "Database" [("id", "mongo:FanApp")] (mongoDbProps r)
      (mongoRun r db g) := by
    rw [hsplit g]
    apply NodeFixed_applyTrace _ _ _ _ _ (mongo_post_keepsNode db "Database" (by decide))
    apply NodeFixed_applyOp _ _ _ _ (Op.deleteLabel "Collection")
      (show ("Database" : String) ≠ "Collection" by decide)
    rw [hg3eq]
    exact NodeFixed_mergeEdge _ _ _ _ _ _ _ _ _ _ hNF0db
  have hEF : EdgeFixed "CONTAINS" "Root" [("id", "root:" ++ r)] "Database"
      [("id", "mongo:FanApp")] [] (mongoRun r db g) := by
    rw [hsplit g]
    apply EdgeFixed_applyTrace _ _ _ _ _ _ _ _
      (mongo_post_keepsEdge db "Root" "Database" (by decide) (by decide))
    apply EdgeFixed_applyOp _ _ _ _ _ _ _ (Op.deleteLabel "Collection")
      ⟨show ("Root" : String) ≠ "Collection" by decide,
       show ("Database" : String) ≠ "Collection" by decide⟩
    rw [hg3eq]
    exact applyMergeEdge_establish _ _ _ _ _ _ _
  have hext : CollExtends (applyOp (applyTrace (mongoSetup r) g) (Op.deleteLabel "Collection"))
      (mongoRun r db g) := by
    rw [hsplit g]
    refine CollExtends_applyTrace _ _ _ hg1n ?_ (CollExtends_refl _)
    intro op hop
    rcases List.mem_append.mp hop with h | h
    · exact mongoExtractOps_collPhase db op h
    · exact mongoDetectOps_collPhase db op h
  rw [hsplit (mongoRun r db g)]
  have hsetup2 : applyTrace (mongoSetup r) (mongoRun r db g) = mongoRun r db g := by
    show applyMergeEdge
        (applyMergeNode
          (applyMergeNode (mongoRun r db g) "Root" [("id", "root:" ++ r)]
            (mongoRootProps r) (mongoRootProps r))
          "Database" [("id", "mongo:FanApp")] (mongoDbProps r) (mongoDbProps r))
        "CONTAINS" "Root" [("id", "root:" ++ r)] "Database" [("id", "mongo:FanApp")] []
      = mongoRun r db g
    rw [applyMergeNode_of_fixed _ _ _ _ _ hNFroot, applyMergeNode_of_fixed _ _ _ _ _ hNFdb,
        applyMergeEdge_of_fixed _ _ _ _ _ _ _ hEF]
  rw [hsetup2]
  have hdel2 : applyOp (mongoRun r db g) (Op.deleteLabel "Collection")
      = applyOp (applyTrace (mongoSetup r) g) (Op.deleteLabel "Collection") := by
    rw [hdel, hdel]
    exact delete_CollExtends _ _ hg1n hg1e hext
  rw [hdel2]
  exact (hsplit g).symm

/-- A `MERGE` with no `ON MATCH SET` clause is a no-op when a match exists. -/
theorem applyMergeNode_onMatchNil (g : Graph) (l : String) (pat pc : PropList)
    (h : g.nodes.any (nodeMatches l pat) = true) :
    applyMergeNode g l pat pc [] = g := by
  unfold applyMergeNode
  rw [if_pos h]
  have hmap : g.nodes.map (fun n =>
      if nodeMatches l pat n then { n with setProps := propsSetAll n.setProps [] } else n)
      = g.nodes := by
    apply (List.map_congr_left ?_).trans (List.map_id _)
    intro n _
    split <;> rfl
  rw [hmap]

theorem propsSetAll_classProps (r f u nm : String) (sp0 : String → Option String) :
    propsSetAll sp0 (classProps r f u nm) "project" = some r := by
  rw [propsSetAll_eq]
  rfl

theorem propsSetAll_methodProps (r f u nm cid : String) (sp0 : String → Option String) :
    propsSetAll sp0 (methodProps r f u nm cid) "project" = some r := by
  rw [propsSetAll_eq]
  rfl

/-- The shape of every operation the analyzer issues after its cleanup:
node merges on extractor-owned labels, created project-tagged, with no
`ON MATCH SET`; and edge merges between extractor-owned labels. -/
def AnalyzerOp (r : String) : Op → Prop
  | .mergeNode l pat pc pm =>
      l ∈ analyzerLabels ∧ pm = [] ∧ fullProp (mkNode l pat pc) "project" = some r
  | .mergeEdge _ sl _ tl _ _ => sl ∈ analyzerLabels ∧ tl ∈ analyzerLabels
  | .constraint _ => True
  | _ => False

theorem analyzerOp_root (r : String) :
    AnalyzerOp r (Op.mergeNode "Root"
      [("name", r), ("project", r), ("color", "orange")] [] []) := by
  refine ⟨by simp [analyzerLabels], rfl, ?_⟩
  rfl

theorem analyzerOp_class (r f u nm cid : String) :
    AnalyzerOp r (Op.mergeNode "Class" [("id", cid)] (classProps r f u nm) []) := by
  refine ⟨by simp [analyzerLabels], rfl, ?_⟩
  show (match propsSetAll (fun _ => none) (classProps r f u nm) "project" with
    | some v => some v
    | none => assocLookup [("id", cid)] "project") = some r
  rw [propsSetAll_classProps]

theorem analyzerOp_function (r f u nm fid : String) :
    AnalyzerOp r (Op.mergeNode "Function" [("id", fid)] (classProps r f u nm) []) := by
  refine ⟨by simp [analyzerLabels], rfl, ?_⟩
  show (match propsSetAll (fun _ => none) (classProps r f u nm) "project" with
    | some v => some v
    | none => assocLookup [("id", fid)] "project") = some r
  rw [propsSetAll_classProps]

theorem analyzerOp_method (r f u nm cid mid : String) :
    AnalyzerOp r (Op.mergeNode "Method" [("id", mid)] (methodProps r f u nm cid) []) := by
  refine ⟨by simp [analyzerLabels], rfl, ?_⟩
  show (match propsSetAll (fun _ => none) (methodProps r f u nm cid) "project" with
    | some v => some v
    | none => assocLookup [("id", mid)] "project") = some r
  rw [propsSetAll_methodProps]

mutual

theorem visitStmt_analyzerOps (r b f : String) (ctx : Option String) (s : Stmt) :
    ∀ op ∈ (visitStmt r b f ctx s).1, AnalyzerOp r op := by
  cases s with
  | classDef nm line body =>
    intro op hop
    simp only [visitStmt] at hop
    rcases List.mem_append.mp hop with h | h
    · simp only [List.mem_cons, List.not_mem_nil, or_false] at h
      rcases h with rfl | rfl
      · exact analyzerOp_class r f (createUrl b f line) nm (r ++ ":" ++ nm)
      · exact ⟨by simp [analyzerLabels], by simp [analyzerLabels]⟩
    · exact visitStmts_analyzerOps r b f (some (r ++ ":" ++ nm)) body op h
  | funcDef nm line body =>
    intro op hop
    cases ctx with
    | some classId =>
      simp only [visitStmt] at hop
      rcases List.mem_append.mp hop with h | h
      · simp only [List.mem_cons, List.not_mem_nil, or_false] at h
        rcases h with rfl | rfl
        · exact analyzerOp_method r f (createUrl b f line) nm classId (classId ++ "." ++ nm)
        · exact ⟨by simp [analyzerLabels], by simp [analyzerLabels]⟩
      · exact visitStmts_analyzerOps r b f (some classId) body op h
    | none =>
      simp only [visitStmt] at hop
      rcases List.mem_append.mp hop with h | h
      · simp only [List.mem_cons, List.not_mem_nil, or_false] at h
        rcases h with rfl | rfl
        · exact analyzerOp_function r f (createUrl b f line) nm (r ++ ":" ++ nm)
        · exact ⟨by simp [analyzerLabels], by simp [analyzerLabels]⟩
      · exact visitStmts_analyzerOps r b f none body op h
  | other children =>
    intro op hop
    simp only [visitStmt] at hop
    exact visitStmts_analyzerOps r b f ctx children op hop

theorem visitStmts_analyzerOps (r b f : String) (ctx : Option String) (l : List Stmt) :
    ∀ op ∈ (visitStmts r b f ctx l).1, AnalyzerOp r op := by
  cases l with
  | nil => intro op hop; simp [visitStmts] at hop
  | cons s rest =>
    intro op hop
    simp only [visitStmts] at hop
    rcases List.mem_append.mp hop with h | h
    · exact visitStmt_analyzerOps r b f ctx s op h
    · exact visitStmts_analyzerOps r b f (visitStmt r b f ctx s).2 rest op h

end

theorem analyzer_post_ops (r b : String) (files : List PyFile) :
    ∀ op ∈ ([Op.constraint "Class", Op.constraint "Function", Op.constraint "Method",
        Op.mergeNode "Root" [("name", r), ("project", r), ("color", "orange")] [] []]
      ++ files.flatMap (fileOps r b)), AnalyzerOp r op := by
  intro op hop
  rcases List.mem_append.mp hop with h | h
  · simp only [List.mem_cons, List.not_mem_nil, or_false] at h
    rcases h with rfl | rfl | rfl | rfl
    · trivial
    · trivial
    · trivial
    · exact analyzerOp_root r
  · rcases List.mem_flatMap.mp h with ⟨fl, _, hin⟩
    exact visitStmts_analyzerOps r b fl.1 none fl.2 op hin

/-- How the analyzer grows the store after its cleanup: only project-tagged
nodes with extractor-owned labels are added, and only edges with at least
one endpoint among them. -/
def TaggedExtends (r : String) (gBase s : Graph) : Prop :=
  ∃ extN extE,
    s.nodes = gBase.nodes ++ extN
    ∧ (∀ n ∈ extN, n.key.1 ∈ analyzerLabels ∧ fullProp n "project" = some r)
    ∧ s.edges = gBase.edges ++ extE
    ∧ (∀ e ∈ extE, e.src ∈ extN.map (·.key) ∨ e.dst ∈ extN.map (·.key))

theorem TaggedExtends_refl (r : String) (gBase : Graph) : TaggedExtends r gBase gBase :=
  ⟨[], [], by simp, by simp, by simp, by simp⟩

theorem TaggedExtends_applyOp (r : String) (gBase s : Graph) (op : Op)
    (hbase : ∀ n ∈ gBase.nodes, n.key.1 ∉ analyzerLabels)
    (hop : AnalyzerOp r op) (h : TaggedExtends r gBase s) :
    TaggedExtends r gBase (applyOp s op) := by
  obtain ⟨extN, extE, hN, hNt, hE, hEd⟩ := h
  cases op with
  | constraint _ => exact ⟨extN, extE, hN, hNt, hE, hEd⟩
  | deleteLabel _ => exact hop.elim
  | deleteByProp _ _ => exact hop.elim
  | mergeNode l pat pc pm =>
    obtain ⟨hl, hpm, hpc⟩ := hop
    subst hpm
    show TaggedExtends r gBase (applyMergeNode s l pat pc [])
    by_cases ha : s.nodes.any (nodeMatches l pat) = true
    · rw [applyMergeNode_onMatchNil s l pat pc ha]
      exact ⟨extN, extE, hN, hNt, hE, hEd⟩
    · unfold applyMergeNode
      rw [if_neg ha]
      refine ⟨extN ++ [mkNode l pat pc], extE, ?_, ?_, hE, ?_⟩
      · show s.nodes ++ [mkNode l pat pc] = gBase.nodes ++ (extN ++ [mkNode l pat pc])
        rw [hN, List.append_assoc]
      · intro n hn
        rcases List.mem_append.mp hn with hn | hn
        · exact hNt n hn
        · rw [show n = mkNode l pat pc by simpa using hn]
          exact ⟨hl, hpc⟩
      · intro e he
        rw [List.map_append]
        rcases hEd e he with h | h
        · exact Or.inl (List.mem_append_left _ h)
        · exact Or.inr (List.mem_append_left _ h)
  | mergeEdge t sl sp tl tp ep =>
    obtain ⟨hsl, _⟩ := hop
    show TaggedExtends r gBase (applyMergeEdge s t sl sp tl tp ep)
    obtain ⟨added, hadd, hsub⟩ := foldl_edgeInsert_append
      ((s.nodes.filter (nodeMatches sl sp)).flatMap (fun s0 =>
        (s.nodes.filter (nodeMatches tl tp)).map (fun d =>
          ({ etype := t, src := s0.key, dst := d.key, props := ep } : GEdge)))) s.edges
    refine ⟨extN, extE ++ added, hN, hNt, ?_, ?_⟩
    · show ((s.nodes.filter (nodeMatches sl sp)).flatMap (fun s0 =>
          (s.nodes.filter (nodeMatches tl tp)).map (fun d =>
            ({ etype := t, src := s0.key, dst := d.key, props := ep } : GEdge)))).foldl
          edgeInsert s.edges = gBase.edges ++ (extE ++ added)
      rw [hadd, hE, List.append_assoc]
    · intro e he
      rcases List.mem_append.mp he with he | he
      · exact hEd e he
      · have hmem := hsub e he
        rcases List.mem_flatMap.mp hmem with ⟨s0, hs0, he2⟩
        rcases List.mem_map.mp he2 with ⟨d, _, rfl⟩
        obtain ⟨hs1, hs2⟩ := List.mem_filter.mp hs0
        have hlabel : s0.key.1 = sl := nodeMatches_label sl sp s0 hs2
        rw [hN] at hs1
        rcases List.mem_append.mp hs1 with hs1 | hs1
        · exact absurd (hlabel ▸ hsl) (hbase s0 hs1)
        · exact Or.inl (List.mem_map.mpr ⟨s0, hs1, rfl⟩)

theorem TaggedExtends_applyTrace (r : String) (gBase s : Graph) (ops : List Op)
    (hbase : ∀ n ∈ gBase.nodes, n.key.1 ∉ analyzerLabels)
    (hops : ∀ op ∈ ops, AnalyzerOp r op) (h : TaggedExtends r gBase s) :
    TaggedExtends r gBase (applyTrace ops s) := by
  induction ops generalizing s with
  | nil => exact h
  | cons op rest ih =>
    exact ih (applyOp s op) (fun o ho => hops o (by simp [ho]))
      (TaggedExtends_applyOp r gBase s op hbase (hops op (by simp)) h)

/-- The analyzer's scoped cleanup applied to a tagged extension recovers the
post-cleanup base exactly. -/
theorem delete_TaggedExtends (r : String) (gBase s : Graph)
    (hwfb : Wf gBase)
    (hbaseT : ∀ n ∈ gBase.nodes, fullProp n "project" ≠ some r)
    (hbaseL : ∀ n ∈ gBase.nodes, n.key.1 ∉ analyzerLabels)
    (h : TaggedExtends r gBase s) :
    applyDeleteWhere s (fun n => fullProp n "project" = some r) = gBase := by
  obtain ⟨extN, extE, hN, hNt, hE, hEd⟩ := h
  have hremoved : (s.nodes.filter (fun n => decide (fullProp n "project" = some r))).map (·.key)
      = extN.map (·.key) := by
    rw [hN, List.filter_append]
    have h1 : gBase.nodes.filter (fun n => decide (fullProp n "project" = some r)) = [] := by
      rw [List.filter_eq_nil_iff]
      intro n hn
      simp [hbaseT n hn]
    have h2 : extN.filter (fun n => decide (fullProp n "project" = some r)) = extN := by
      rw [List.filter_eq_self]
      intro n hn
      simp [(hNt n hn).2]
    rw [h1, h2, List.nil_append]
  have hkeys : ∀ k ∈ extN.map (·.key), k.1 ∈ analyzerLabels := by
    intro k hk
    rcases List.mem_map.mp hk with ⟨n, hn, rfl⟩
    exact (hNt n hn).1
  have hnodes : s.nodes.filter (fun n => !(decide (fullProp n "project" = some r)))
      = gBase.nodes := by
    rw [hN, List.filter_append]
    have h1 : gBase.nodes.filter (fun n => !(decide (fullProp n "project" = some r)))
        = gBase.nodes := by
      rw [List.filter_eq_self]
      intro n hn
      simp [hbaseT n hn]
    have h2 : extN.filter (fun n => !(decide (fullProp n "project" = some r))) = [] := by
      rw [List.filter_eq_nil_iff]
      intro n hn
      simp [(hNt n hn).2]
    rw [h1, h2, List.append_nil]
  have hedges : s.edges.filter (fun e =>
      decide (e.src ∉ extN.map (·.key) ∧ e.dst ∉ extN.map (·.key))) = gBase.edges := by
    rw [hE, List.filter_append]
    have h1 : gBase.edges.filter (fun e =>
        decide (e.src ∉ extN.map (·.key) ∧ e.dst ∉ extN.map (·.key))) = gBase.edges := by
      rw [List.filter_eq_self]
      intro e he
      apply decide_eq_true
      obtain ⟨⟨ns, hns, hks⟩, ⟨nd, hnd, hkd⟩⟩ := hwfb e he
      constructor
      · intro habs
        exact hbaseL ns hns (hks ▸ hkeys _ habs)
      · intro habs
        exact hbaseL nd hnd (hkd ▸ hkeys _ habs)
    have h2 : extE.filter (fun e =>
        decide (e.src ∉ extN.map (·.key) ∧ e.dst ∉ extN.map (·.key))) = [] := by
      rw [List.filter_eq_nil_iff]
      intro e he
      simp only [decide_eq_true_eq, not_and, not_not]
      intro hsrc
      rcases hEd e he with h | h
      · exact absurd h hsrc
      · exact h
    rw [h1, h2, List.append_nil]
  rw [applyDeleteWhere_eq, hremoved, hnodes, hedges]

/-- Idempotence of the code structure extractor's run: starting from any
well-formed store in which every extractor-owned node carries the run's
project tag (true of any state the analyzer itself produced), a second
identical run changes nothing. -/
theorem analyzer_idem (r b : String) (files : List PyFile) (g : Graph)
    (hwf : Wf g) (htag : ScopeTagged r g) :
    analyzerRun r b files (analyzerRun r b files g) = analyzerRun r b files g := by
  have hsplit : ∀ h : Graph, analyzerRun r b files h
      = applyTrace ([Op.constraint "Class", Op.constraint "Function", Op.constraint "Method",
          Op.mergeNode "Root" [("name", r), ("project", r), ("color", "orange")] [] []]
        ++ files.flatMap (fileOps r b))
          (applyOp h (Op.deleteByProp "project" r)) := fun _ => rfl
  have hdel : ∀ x : Graph, applyOp x (Op.deleteByProp "project" r)
      = applyDeleteWhere x (fun n => fullProp n "project" = some r) := fun _ => rfl
  have hmidT : ∀ n ∈ (applyOp g (Op.deleteByProp "project" r)).nodes,
      fullProp n "project" ≠ some r := by
    intro n hn
    rw [hdel] at hn
    have := deleteWhere_nodes g (fun n => fullProp n "project" = some r) n hn
    simpa using this
  have hmidL : ∀ n ∈ (applyOp g (Op.deleteByProp "project" r)).nodes,
      n.key.1 ∉ analyzerLabels := by
    intro n hn habs
    have hgmem : n ∈ g.nodes := by
      rw [hdel] at hn
      exact (List.mem_filter.mp hn).1
    exact hmidT n hn (htag n hgmem habs)
  have hmidW : Wf (applyOp g (Op.deleteByProp "project" r)) := by
    rw [hdel]
    exact Wf_delete g _ hwf
  have hext : TaggedExtends r (applyOp g (Op.deleteByProp "project" r))
      (analyzerRun r b files g) := by
    rw [hsplit g]
    exact TaggedExtends_applyTrace r _ _ _ hmidL (analyzer_post_ops r b files)
      (TaggedExtends_refl r _)
  rw [hsplit (analyzerRun r b files g)]
  have hdel2 : applyOp (analyzerRun r b files g) (Op.deleteByProp "project" r)
      = applyOp g (Op.deleteByProp "project" r) := by
    rw [hdel]
    exact delete_TaggedExtends r _ _ hmidW hmidT hmidL hext
  rw [hdel2]
  exact (hsplit g).symm

/-- Cancel a shared left factor of two strings. -/
theorem strAppendCancelLeft (s a b : String) (h : s ++ a = s ++ b) : a = b := by
  have hd : s.data ++ a.data = s.data ++ b.data := by
    have := congrArg String.data h
    simpa [String.data_append] using this
  have h2 := List.append_cancel_left hd
  cases a; cases b; simp_all

theorem applyOp_node_keys (g : Graph) (op : Op) :
    ∀ n ∈ (applyOp g op).nodes,
      (∃ m ∈ g.nodes, m.key = n.key)
      ∨ ∃ l pat pc pm, op = Op.mergeNode l pat pc pm ∧ n.key = (l, pat) := by
  intro n hn
  cases op with
  | constraint _ => exact Or.inl ⟨n, hn, rfl⟩
  | deleteLabel lD => exact Or.inl ⟨n, (List.mem_filter.mp hn).1, rfl⟩
  | deleteByProp k v => exact Or.inl ⟨n, (List.mem_filter.mp hn).1, rfl⟩
  | mergeEdge t sl sp tl tp ep => exact Or.inl ⟨n, hn, rfl⟩
  | mergeNode l pat pc pm =>
    have hn2 : n ∈ (applyMergeNode g l pat pc pm).nodes := hn
    by_cases ha : g.nodes.any (nodeMatches l pat) = true
    · have heq : applyMergeNode g l pat pc pm = { g with nodes := g.nodes.map (fun n =>
          if nodeMatches l pat n then { n with setProps := propsSetAll n.setProps pm } else n) } := by
        unfold applyMergeNode
        rw [if_pos ha]
      rw [heq] at hn2
      rcases List.mem_map.mp hn2 with ⟨m, hm, rfl⟩
      refine Or.inl ⟨m, hm, ?_⟩
      split <;> rfl
    · have heq : applyMergeNode g l pat pc pm
          = { g with nodes := g.nodes ++ [mkNode l pat pc] } := by
        unfold applyMergeNode
        rw [if_neg ha]
      rw [heq] at hn2
      rcases List.mem_append.mp hn2 with h | h
      · exact Or.inl ⟨n, h, rfl⟩
      · refine Or.inr ⟨l, pat, pc, pm, rfl, ?_⟩
        rw [show n = mkNode l pat pc by simpa using h]
        rfl

theorem applyTrace_node_keys (ops : List Op) (g : Graph) :
    ∀ n ∈ (applyTrace ops g).nodes,
      (∃ m ∈ g.nodes, m.key = n.key)
      ∨ ∃ l pat pc pm, Op.mergeNode l pat pc pm ∈ ops ∧ n.key = (l, pat) := by
  induction ops generalizing g with
  | nil => exact fun n hn => Or.inl ⟨n, hn, rfl⟩
  | cons op rest ih =>
    intro n hn
    rcases ih (applyOp g op) n hn with ⟨m, hm, hkm⟩ | ⟨l, pat, pc, pm, hop, hk⟩
    · rcases applyOp_node_keys g op m hm with ⟨m2, hm2, hkm2⟩ | ⟨l, pat, pc, pm, hop, hk⟩
      · exact Or.inl ⟨m2, hm2, hkm2.trans hkm⟩
      · exact Or.inr ⟨l, pat, pc, pm, by simp [hop], hkm ▸ hk⟩
    · exact Or.inr ⟨l, pat, pc, pm, by simp [hop], hk⟩

/-- The decomposition of the MongoDB run into setup, cleanup and rebuild. -/
theorem mongoRun_eq (r : String) (db : MongoDb) (h : Graph) :
    mongoRun r db h
      = applyTrace (mongoExtractOps db ++ mongoDetectOps db)
          (applyOp (applyTrace (mongoSetup r) h) (Op.deleteLabel "Collection")) := by
  show applyTrace ((mongoSetup r ++ [Op.deleteLabel "Collection"])
    ++ (mongoExtractOps db ++ mongoDetectOps db)) h = _
  rw [applyTrace_append (mongoSetup r ++ [Op.deleteLabel "Collection"])
    (mongoExtractOps db ++ mongoDetectOps db) h]
  rw [applyTrace_append (mongoSetup r) [Op.deleteLabel "Collection"] h]
  rfl

theorem mongoExtract_mergeNode (db : MongoDb) :
    ∀ l pat pc pm, Op.mergeNode l pat pc pm ∈ mongoExtractOps db →
      ∃ cn ∈ db.map (·.1), l = "Collection" ∧ pat = [("id", "mongo:FanApp." ++ cn)] := by
  intro l pat pc pm hop
  rcases List.mem_flatMap.mp hop with ⟨c, hc, hin⟩
  simp only [List.mem_cons, List.not_mem_nil, or_false] at hin
  rcases hin with h | h
  · injection h with h1 h2 h3 h4
    exact ⟨c.1, List.mem_map.mpr ⟨c, hc, rfl⟩, h1, h2⟩
  · exact Op.noConfusion h

theorem mongoDetect_no_mergeNode (db : MongoDb) :
    ∀ l pat pc pm, Op.mergeNode l pat pc pm ∉ mongoDetectOps db := by
  intro l pat pc pm hop
  rcases List.mem_flatMap.mp hop with ⟨c, _, hin⟩
  rcases List.mem_map.mp hin with ⟨fr, _, h⟩
  exact Op.noConfusion h

/-- After a MongoDB run, no Collection node keyed to a collection that is
absent from the source database remains. -/
theorem mongo_no_absent_collection (r : String) (db : MongoDb) (g : Graph) (name : String)
    (habs : name ∉ db.map (·.1)) :
    ∀ n ∈ (mongoRun r db g).nodes,
      n.key ≠ ("Collection", [("id", "mongo:FanApp." ++ name)]) := by
  intro n hn hkey
  rw [mongoRun_eq] at hn
  rcases applyTrace_node_keys _ _ n hn with ⟨m, hm, hkm⟩ | ⟨l, pat, pc, pm, hop, hk⟩
  · have hlab : m.key.1 ≠ "Collection" := by
      have := deleteWhere_nodes (applyTrace (mongoSetup r) g)
        (fun n => n.key.1 = "Collection") m hm
      simpa using this
    rw [hkm, hkey] at hlab
    exact hlab rfl
  · rw [hkey] at hk
    have hk2 := hk.symm
    injection hk2 with hkl hkp
    rcases List.mem_append.mp hop with hop | hop
    · obtain ⟨cn, hcn, hl, hpat⟩ := mongoExtract_mergeNode db l pat pc pm hop
      rw [hpat] at hkp
      injection hkp with hhead _
      injection hhead with _ hval
      have : cn = name := strAppendCancelLeft "mongo:FanApp." cn name hval
      exact habs (this ▸ hcn)
    · exact mongoDetect_no_mergeNode db l pat pc pm hop

mutual

/-- All class names declared anywhere in one statement (nested included,
matching what the visitor actually emits Class nodes for). -/
def stmtClassNames : Stmt → List String
  | .classDef nm _ body => nm :: stmtsClassNames body
  | .funcDef _ _ body => stmtsClassNames body
  | .other children => stmtsClassNames children

/-- All class names declared anywhere in a statement list. -/
def stmtsClassNames : List Stmt → List String
  | [] => []
  | s :: rest => stmtClassNames s ++ stmtsClassNames rest

end

/-- All class names declared anywhere in the walked files. -/
def filesClassNames (files : List PyFile) : List String :=
  files.flatMap (fun f => stmtsClassNames f.2)

mutual

theorem visitStmt_class_pat (r b f : String) (ctx : Option String) (s : Stmt) :
    ∀ pat pc pm, Op.mergeNode "Class" pat pc pm ∈ (visitStmt r b f ctx s).1 →
      ∃ cn ∈ stmtClassNames s, pat = [("id", r ++ ":" ++ cn)] := by
  cases s with
  | classDef nm line body =>
    intro pat pc pm hop
    simp only [visitStmt] at hop
    rcases List.mem_append.mp hop with h | h
    · simp only [List.mem_cons, List.not_mem_nil, or_false] at h
      rcases h with h | h
      · injection h with _ h2
        exact ⟨nm, by simp [stmtClassNames], h2⟩
      · exact Op.noConfusion h
    · obtain ⟨cn, hcn, hpat⟩ :=
        visitStmts_class_pat r b f (some (r ++ ":" ++ nm)) body pat pc pm h
      exact ⟨cn, by simp [stmtClassNames, hcn], hpat⟩
  | funcDef nm line body =>
    intro pat pc pm hop
    cases ctx with
    | some classId =>
      simp only [visitStmt] at hop
      rcases List.mem_append.mp hop with h | h
      · simp only [List.mem_cons, List.not_mem_nil, or_false] at h
        rcases h with h | h
        · injection h with h1 _
          exact absurd h1 (by decide)
        · exact Op.noConfusion h
      · obtain ⟨cn, hcn, hpat⟩ :=
          visitStmts_class_pat r b f (some classId) body pat pc pm h
        exact ⟨cn, by simpa [stmtClassNames] using hcn, hpat⟩
    | none =>
      simp only [visitStmt] at hop
      rcases List.mem_append.mp hop with h | h
      · simp only [List.mem_cons, List.not_mem_nil, or_false] at h
        rcases h with h | h
        · injection h with h1 _
          exact absurd h1 (by decide)
        · exact Op.noConfusion h
      · obtain ⟨cn, hcn, hpat⟩ := visitStmts_class_pat r b f none body pat pc pm h
        exact ⟨cn, by simpa [stmtClassNames] using hcn, hpat⟩
  | other children =>
    intro pat pc pm hop
    simp only [visitStmt] at hop
    obtain ⟨cn, hcn, hpat⟩ := visitStmts_class_pat r b f ctx children pat pc pm hop
    exact ⟨cn, by simpa [stmtClassNames] using hcn, hpat⟩

theorem visitStmts_class_pat (r b f : String) (ctx : Option String) (l : List Stmt) :
    ∀ pat pc pm, Op.mergeNode "Class" pat pc pm ∈ (visitStmts r b f ctx l).1 →
      ∃ cn ∈ stmtsClassNames l, pat = [("id", r ++ ":" ++ cn)] := by
  cases l with
  | nil => intro pat pc pm hop; simp [visitStmts] at hop
  | cons s rest =>
    intro pat pc pm hop
    simp only [visitStmts] at hop
    rcases List.mem_append.mp hop with h | h
    · obtain ⟨cn, hcn, hpat⟩ := visitStmt_class_pat r b f ctx s pat pc pm h
      exact ⟨cn, by simp [stmtsClassNames, hcn], hpat⟩
    · obtain ⟨cn, hcn, hpat⟩ :=
        visitStmts_class_pat r b f (visitStmt r b f ctx s).2 rest pat pc pm h
      exact ⟨cn, by simp [stmtsClassNames, hcn], hpat⟩

end

/-- After a code-structure run, no Class node keyed to a class name that is
absent from the walked sources remains; the prior state may be anything
whose extractor-owned nodes are project-tagged (true of every state the
analyzer itself produced). -/
theorem analyzer_no_absent_class (r b : String) (files : List PyFile) (g : Graph)
    (name : String) (htag : ScopeTagged r g) (habs : name ∉ filesClassNames files) :
    ∀ n ∈ (analyzerRun r b files g).nodes,
      n.key ≠ ("Class", [("id", r ++ ":" ++ name)]) := by
  intro n hn hkey
  have hsplit : analyzerRun r b files g
      = applyTrace ([Op.constraint "Class", Op.constraint "Function", Op.constraint "Method",
          Op.mergeNode "Root" [("name", r), ("project", r), ("color", "orange")] [] []]
        ++ files.flatMap (fileOps r b))
          (applyOp g (Op.deleteByProp "project" r)) := rfl
  rw [hsplit] at hn
  rcases applyTrace_node_keys _ _ n hn with ⟨m, hm, hkm⟩ | ⟨l, pat, pc, pm, hop, hk⟩
  · have hunt : fullProp m "project" ≠ some r := by
      have := deleteWhere_nodes g (fun n => fullProp n "project" = some r) m hm
      simpa using this
    have hgm : m ∈ g.nodes := (List.mem_filter.mp hm).1
    apply hunt
    apply htag m hgm
    rw [show m.key.1 = "Class" by rw [hkm, hkey]]
    simp [analyzerLabels]
  · rw [hkey] at hk
    have hk2 := hk.symm
    injection hk2 with hkl hkp
    rcases List.mem_append.mp hop with hop | hop
    · simp only [List.mem_cons, List.not_mem_nil, or_false] at hop
      rcases hop with h | h | h | h
      · exact Op.noConfusion h
      · exact Op.noConfusion h
      · exact Op.noConfusion h
      · injection h with h1 _
        exact absurd (hkl ▸ h1) (by decide)
    · rcases List.mem_flatMap.mp hop with ⟨fl, hfl, hin⟩
      rw [hkl] at hin
      obtain ⟨cn, hcn, hpat⟩ := visitStmts_class_pat r b fl.1 none fl.2 pat pc pm hin
      rw [hpat] at hkp
      injection hkp with hhead _
      injection hhead with _ hval
      have : cn = name := strAppendCancelLeft (r ++ ":") cn name hval
      exact habs (List.mem_flatMap.mpr ⟨fl, hfl, this ▸ hcn⟩)

/-- Any state the analyzer produces has all its extractor-owned nodes
tagged with the run's project name. -/
theorem analyzerRun_scopeTagged (r b : String) (files : List PyFile) (g : Graph)
    (htag : ScopeTagged r g) : ScopeTagged r (analyzerRun r b files g) := by
  have hdel : applyOp g (Op.deleteByProp "project" r)
      = applyDeleteWhere g (fun n => fullProp n "project" = some r) := rfl
  have hmidT : ∀ n ∈ (applyOp g (Op.deleteByProp "project" r)).nodes,
      fullProp n "project" ≠ some r := by
    intro n hn
    rw [hdel] at hn
    have := deleteWhere_nodes g (fun n => fullProp n "project" = some r) n hn
    simpa using this
  have hmidL : ∀ n ∈ (applyOp g (Op.deleteByProp "project" r)).nodes,
      n.key.1 ∉ analyzerLabels := by
    intro n hn habs
    have hgmem : n ∈ g.nodes := by
      rw [hdel] at hn
      exact (List.mem_filter.mp hn).1
    exact hmidT n hn (htag n hgmem habs)
  have hsplit : analyzerRun r b files g
      = applyTrace ([Op.constraint "Class", Op.constraint "Function", Op.constraint "Method",
          Op.mergeNode "Root" [("name", r), ("project", r), ("color", "orange")] [] []]
        ++ files.flatMap (fileOps r b))
          (applyOp g (Op.deleteByProp "project" r)) := rfl
  have hext : TaggedExtends r (applyOp g (Op.deleteByProp "project" r))
      (analyzerRun r b files g) := by
    rw [hsplit]
    exact TaggedExtends_applyTrace r _ _ _ hmidL (analyzer_post_ops r b files)
      (TaggedExtends_refl r _)
  obtain ⟨extN, extE, hN, hNt, _, _⟩ := hext
  intro n hn hlab
  rw [hN] at hn
  rcases List.mem_append.mp hn with h | h
  · exact absurd hlab (hmidL n h)
  · exact (hNt n h).2

/-- C3: running the synchronization twice in succession over unchanged
source data yields an identical graph.  For the MongoDB extractor this holds
over any well-formed prior store; for the code structure extractor over any
well-formed prior store whose extractor-owned nodes carry the run's project
tag (which is the case for every state the analyzer itself produces, by
`analyzerRun_scopeTagged`).  The second run creates no node or edge and
changes no property: the states are equal. -/
theorem run_idempotent :
    (∀ (r : String) (db : MongoDb) (g : Graph), Wf g →
      mongoRun r db (mongoRun r db g) = mongoRun r db g)
    ∧ (∀ (r b : String) (files : List PyFile) (g : Graph), Wf g → ScopeTagged r g →
      analyzerRun r b files (analyzerRun r b files g) = analyzerRun r b files g) :=
  ⟨mongo_idem, analyzer_idem⟩

/-- Witness for C3 on concrete data from a fresh store. -/
theorem run_idempotent_witness :
    mongoRun "Proj" usersOrdersDb (mongoRun "Proj" usersOrdersDb Graph.empty)
      = mongoRun "Proj" usersOrdersDb Graph.empty
    ∧ analyzerRun "Proj" "http://b" [("/app/m.py", [Stmt.classDef "A" 1 [Stmt.funcDef "m" 2 []]])]
        (analyzerRun "Proj" "http://b"
          [("/app/m.py", [Stmt.classDef "A" 1 [Stmt.funcDef "m" 2 []]])] Graph.empty)
      = analyzerRun "Proj" "http://b"
          [("/app/m.py", [Stmt.classDef "A" 1 [Stmt.funcDef "m" 2 []]])] Graph.empty :=
  ⟨run_idempotent.1 "Proj" usersOrdersDb Graph.empty
      (fun e he => absurd he (List.not_mem_nil e)),
   run_idempotent.2 "Proj" "http://b" [("/app/m.py", [Stmt.classDef "A" 1 [Stmt.funcDef "m" 2 []]])]
      Graph.empty (fun e he => absurd he (List.not_mem_nil e))
      (fun n hn => absurd hn (List.not_mem_nil n))⟩

/-- C5: convergence after removal.  If a collection is absent from the
source in run N+1, then after run N+1 (following any run N) no Collection
node with its identity key remains; likewise, if a class name is absent
from every walked file in run N+1, no Class node with its identity key
remains — for the code variant over any prior store whose extractor-owned
nodes are project-tagged, as every analyzer-produced state is. -/
theorem convergence_after_removal :
    (∀ (r : String) (db1 db2 : MongoDb) (g : Graph) (name : String),
      name ∉ db2.map (·.1) →
      ((mongoRun r db2 (mongoRun r db1 g)).nodes.all
        (fun n => decide (n.key ≠ ("Collection", [("id", "mongo:FanApp." ++ name)])))) = true)
    ∧ (∀ (r b : String) (files1 files2 : List PyFile) (g : Graph) (name : String),
      ScopeTagged r g → name ∉ filesClassNames files2 →
      ((analyzerRun r b files2 (analyzerRun r b files1 g)).nodes.all
        (fun n => decide (n.key ≠ ("Class", [("id", r ++ ":" ++ name)])))) = true) := by
  constructor
  · intro r db1 db2 g name habs
    rw [List.all_eq_true]
    intro n hn
    exact decide_eq_true
      (mongo_no_absent_collection r db2 (mongoRun r db1 g) name habs n hn)
  · intro r b files1 files2 g name htag habs
    rw [List.all_eq_true]
    intro n hn
    exact decide_eq_true
      (analyzer_no_absent_class r b files2 (analyzerRun r b files1 g) name
        (analyzerRun_scopeTagged r b files1 g htag) habs n hn)

/-- Witness for C5: a collection/class created by run N disappears when run
N+1 no longer sees it in the source. -/
theorem convergence_after_removal_witness :
    ((mongoRun "P" [] (mongoRun "P" [("Users", [[("_id", Value.vObjectId "u1")]])]
        Graph.empty)).nodes.all
      (fun n => decide (n.key ≠ ("Collection", [("id", "mongo:FanApp." ++ "Users")])))) = true
    ∧ ((analyzerRun "P" "u" [] (analyzerRun "P" "u"
        [("/app/m.py", [Stmt.classDef "A" 1 []])] Graph.empty)).nodes.all
      (fun n => decide (n.key ≠ ("Class", [("id", "P" ++ ":" ++ "A")])))) = true :=
  ⟨convergence_after_removal.1 "P" [("Users", [[("_id", Value.vObjectId "u1")]])] [] Graph.empty
      "Users" (by simp),
   convergence_after_removal.2 "P" "u" [("/app/m.py", [Stmt.classDef "A" 1 []])] [] Graph.empty
      "A" (fun n hn => absurd hn (List.not_mem_nil n)) (by simp [filesClassNames])⟩
